import Mathlib

/-!
Shallow embedding of the rusk task-runner core (src/taskkey.rs, src/path.rs,
src/rusk.rs, src/digraph.rs, src/fs.rs), together with theorems settling the
specification's claims against it.

Conventions of the embedding:
- filesystem and shell behaviour (external collaborators per spec §1) are
  oracles passed in as arguments;
- the single-threaded cooperative runtime is sequentialized: state
  transitions of an executable cell happen between suspension points, so a
  run of an `Initialized` cell executes its inner future and lands in `Done`
  in one step;
- Rust `HashMap`/`HashSet` keyed by `TaskKey` use `TaskKey`'s `Hash`/`Eq`,
  which compare the canonical string; the embedding keeps association lists
  compared through `TaskKey.canon`.
-/

namespace Rusk

/-- Embedding of `NormarizedPath` (path.rs:17): a normalized absolute path.
The `rel` field of the Rust struct is a lazily computed cache derived from
`abs` and the current directory, and equality, hashing and ordering in
path.rs use only `abs`, so the embedding keeps `abs` alone. -/
structure NormarizedPath where
  abs : String
deriving DecidableEq, Repr

/-- Modelled from the spec: `NormarizedPath::as_short_str` is called from
taskkey.rs and fs.rs but its definition is missing from src/ (path.rs only
defines `as_rel_str` and `as_abs_str`).  Spec §3 states that equality,
hashing and ordering of keys are on the canonical string form, where a File
key's canonical form is its normalized absolute path, and §4.1 states that
display is decorative while identity uses the canonical string; the string a
key exposes for identity is therefore its absolute path. -/
def NormarizedPath.as_short_str (p : NormarizedPath) : String := p.abs

/-- Embedding of `PhonyTaskString` (taskkey.rs:19): the payload of a phony
key, a string that parsing restricts to the phony-name shape. -/
structure PhonyTaskString where
  inner : String
deriving DecidableEq, Repr

/-- Embedding of `PathTaskString` (taskkey.rs:62): the payload of a relative
file key, a raw string that must contain a slash or a dot. -/
structure PathTaskString where
  inner : String
deriving DecidableEq, Repr

/-- Embedding of `TaskKey` (taskkey.rs:152). -/
inductive TaskKey where
  | phony (name : PhonyTaskString)
  | file (path : NormarizedPath)
deriving DecidableEq, Repr

/-- Embedding of `impl AsRef<str> for TaskKey` (taskkey.rs:226): the canonical
string a key exposes, used by equality, hashing and map lookups. -/
def TaskKey.canon : TaskKey → String
  | .phony n => n.inner
  | .file p => p.as_short_str

/-- Embedding of `impl PartialEq for TaskKey` (taskkey.rs:235): keys are equal
when their canonical strings are. -/
def TaskKey.keyEq (a b : TaskKey) : Prop := a.canon = b.canon

instance (a b : TaskKey) : Decidable (TaskKey.keyEq a b) :=
  inferInstanceAs (Decidable (a.canon = b.canon))

/-- Embedding of `TaskKeyParseError` (taskkey.rs:186) together with the two
wrapped component errors, which carry only a static message. -/
inductive TaskKeyParseError where
  | empty
  | phonyMsg (msg : String)
  | pathMsg (msg : String)
deriving DecidableEq, Repr

/-- Embedding of `str::contains(char)` as used by the key parsers. -/
def strContains (s : String) (c : Char) : Bool := s.data.contains c

/-- Embedding of `impl TryFrom<String> for PhonyTaskString` (taskkey.rs:34):
the string must be nonempty, start with an ASCII letter, and continue with
ASCII alphanumerics, underscore or hyphen. -/
def PhonyTaskString.tryFrom (value : String) : Except TaskKeyParseError PhonyTaskString :=
  if value = "" then .error (.phonyMsg "Empty string is not allowed")
  else
    match value.data with
    | [] => .error (.phonyMsg "Empty string is not allowed")
    | first :: chars =>
      if first.isAlpha then
        if chars.all (fun c => c.isAlphanum || c == '_' || c == '-') then .ok ⟨value⟩
        else .error (.phonyMsg "Only ascii letters, digits, underscore and hyphen are allowed")
      else .error (.phonyMsg "First character must be alphabetic")

/-- Embedding of `impl TryFrom<String> for PathTaskString` (taskkey.rs:77):
the string must be nonempty and contain a slash or a dot. -/
def PathTaskString.tryFrom (value : String) : Except TaskKeyParseError PathTaskString :=
  if value = "" then .error (.pathMsg "Empty string is not allowed")
  else if strContains value '/' || strContains value '.' then .ok ⟨value⟩
  else .error (.pathMsg "Path must contain slash or dot")

/-- Embedding of `TaskKeyRelative` (taskkey.rs:160): a key as written in a
configuration file, before resolution against a base directory. -/
inductive TaskKeyRelative where
  | phony (name : PhonyTaskString)
  | file (path : PathTaskString)
deriving DecidableEq, Repr

/-- Embedding of `impl TryFrom<String> for TaskKeyRelative` (taskkey.rs:195):
empty strings fail with `Empty`; a string containing a slash or a dot becomes
a File key carrying the raw string; anything else must parse as a phony
name. -/
def TaskKeyRelative.tryFrom (value : String) : Except TaskKeyParseError TaskKeyRelative :=
  if value = "" then .error .empty
  else if strContains value '/' || strContains value '.' then
    match PathTaskString.tryFrom value with
    | .ok p => .ok (.file p)
    | .error e => .error e
  else
    match PhonyTaskString.tryFrom value with
    | .ok n => .ok (.phony n)
    | .error e => .error e

/-- The raw string stored in a relative key (the `inner` field of either
variant). -/
def TaskKeyRelative.stored : TaskKeyRelative → String
  | .phony n => n.inner
  | .file p => p.inner

/-- The phony-name shape enforced by `PhonyTaskString::try_from`, i.e. one
ASCII letter followed by ASCII alphanumerics, underscore or hyphen. -/
def phonyShape (s : String) : Bool :=
  match s.data with
  | [] => false
  | first :: chars => first.isAlpha && chars.all (fun c => c.isAlphanum || c == '_' || c == '-')

/-- Embedding of `TaskKeyRelative::into_task_key` (taskkey.rs:128/215): phony
names are unchanged; file paths are joined with the base directory and
normalized.  Joining-and-normalizing delegates to the external `path_dedot`
and `std::path::absolute` collaborators, passed in as the oracle
`normJoin`. -/
def TaskKeyRelative.intoTaskKey (normJoin : String → String → NormarizedPath)
    (base : String) : TaskKeyRelative → TaskKey
  | .phony n => .phony n
  | .file p => .file (normJoin base p.inner)

/-- Lookup in an environment map built with `HashMap::collect` semantics: a
later entry for the same name overwrites an earlier one, which is how
rusk.rs:177 builds the merged environment. -/
def envGet (xs : List (String × String)) (k : String) : Option String :=
  xs.foldl (fun acc p => if p.1 = k then some p.2 else acc) none

/-- Embedding of the merged environment of rusk.rs:177:
`global_env.clone().into_iter().chain(envs).collect()` — global entries
followed by the task's own entries, later entries overriding earlier ones. -/
def mergedEnvs (globalEnv taskEnvs : List (String × String)) : List (String × String) :=
  globalEnv ++ taskEnvs

/-- Result of `Metadata::modified()` for a file whose `metadata` call
succeeded: `some t` is the modification time (modelled as a natural number
carrying the host ordering), `none` is the platform failure case. -/
structure FileMeta where
  modified : Option Nat
deriving DecidableEq, Repr

/-- Oracle for the filesystem calls the engine makes. -/
structure FS where
  /-- `tokio::fs::metadata`: `some` on success, `none` on failure. -/
  metadata : String → Option FileMeta
  /-- whether `tokio::fs::try_exists` returned `Ok(true)`. -/
  existsOk : String → Bool
  /-- `Path::is_dir`, used by `into_executable` on each task's cwd. -/
  isDir : String → Bool

/-- Oracle for the external `deno_task_shell` collaborator. -/
structure Shell where
  /-- `deno_task_shell::parser::parse` on one script line: `some items` on
  success (items modelled opaquely as strings), `none` on a parse error. -/
  parseLine : String → Option (List String)
  /-- `deno_task_shell::execute_with_pipes`: the exit code of running the
  concatenated script items under an environment and working directory. -/
  exec : List String → List (String × String) → String → Int

/-- Embedding of `TaskError` (rusk.rs:392). -/
inductive TaskError where
  | execution (key : TaskKey) (exitCode : Int)
  | failedToGetFileMetadata
  | dependencyFileNotFound (depFile : NormarizedPath) (task : TaskKey)
deriving DecidableEq, Repr

/-- Embedding of the alias `TaskResult` (rusk.rs:405). -/
abbrev TaskResult := Except TaskError Unit

instance : DecidableEq TaskResult := fun a b =>
  match a, b with
  | .ok x, .ok y => .isTrue (by cases x; cases y; rfl)
  | .error x, .error y =>
    if h : x = y then .isTrue (by rw [h]) else .isFalse (by simp [h])
  | .ok _, .error _ => .isFalse (by simp)
  | .error _, .ok _ => .isFalse (by simp)

/-- Outcome of running a task body: either a normal `TaskResult`, or the
`unwrap` panic that `TaskExecutableInner::into_future` can reach at
rusk.rs:292. -/
inductive ExecOutcome where
  | normal (r : TaskResult)
  | panicked
deriving DecidableEq, Repr

/-- Embedding of `TaskExecutableInner` (rusk.rs:349); the `io` set is carried
by the `Shell` oracle and therefore not repeated here. -/
structure TaskExecutableInner where
  key : TaskKey
  envs : List (String × String)
  script : List String
  cwd : NormarizedPath
  depends : List TaskKey
deriving DecidableEq, Repr

/-- Step 1 of the File branch of `into_future` (rusk.rs:262): collect the
metadata of every File dependency in order, failing with
`DependencyFileNotFound` at the first dependency whose `metadata` call
fails; Phony dependencies are skipped here but counted by the caller. -/
def collectDepMetas (fs : FS) (key : TaskKey) : List TaskKey → Except TaskError (List FileMeta)
  | [] => .ok []
  | .file p :: rest =>
    match fs.metadata p.abs with
    | none => .error (.dependencyFileNotFound p key)
    | some md =>
      match collectDepMetas fs key rest with
      | .ok ms => .ok (md :: ms)
      | .error e => .error e
  | .phony _ :: rest => collectDepMetas fs key rest

/-- Verdict of the modification-time loop of `into_future` (rusk.rs:291). -/
inductive MtimeCheck where
  | runScript
  | skipTask
  | panicked
deriving DecidableEq, Repr

/-- The comparison loop of `into_future` (rusk.rs:291): walk the collected
dependency metadata in order; `dep.modified().unwrap()` panics when a
dependency's modification time is unavailable; `modified <= dep_modified`
forces a rebuild; if the loop completes, the task is skipped with `Ok`. -/
def checkDepMtimes (modified : Nat) : List FileMeta → MtimeCheck
  | [] => .skipTask
  | md :: rest =>
    match md.modified with
    | none => .panicked
    | some depModified =>
      if modified ≤ depModified then .runScript else checkDepMtimes modified rest

/-- The existence loop of the Phony branch of `into_future` (rusk.rs:304):
the first File dependency for which `try_exists` does not return `Ok(true)`,
if any. -/
def firstMissingDep (fs : FS) : List TaskKey → Option NormarizedPath
  | [] => none
  | .file p :: rest => if fs.existsOk p.abs then firstMissingDep fs rest else some p
  | .phony _ :: rest => firstMissingDep fs rest

/-- Embedding of `TaskExecutableInner::into_future` (rusk.rs:249).  Returns
the outcome together with a flag recording whether the shell was invoked. -/
def intoFuture (fs : FS) (sh : Shell) (inner : TaskExecutableInner) : ExecOutcome × Bool :=
  let runScript : ExecOutcome × Bool :=
    let exitCode := sh.exec inner.script inner.envs inner.cwd.abs
    (if exitCode = 0 then .normal (.ok ()) else .normal (.error (.execution inner.key exitCode)),
      true)
  match inner.key with
  | .file f =>
    match collectDepMetas fs inner.key inner.depends with
    | .error e => (.normal (.error e), false)
    | .ok depMetas =>
      if inner.depends.length ≠ depMetas.length then runScript
      else
        match fs.metadata f.abs with
        | none => runScript
        | some md =>
          match md.modified with
          | none => (.normal (.error .failedToGetFileMetadata), false)
          | some t =>
            match checkDepMtimes t depMetas with
            | .runScript => runScript
            | .skipTask => (.normal (.ok ()), false)
            | .panicked => (.panicked, false)
  | .phony _ =>
    match firstMissingDep fs inner.depends with
    | some p => (.normal (.error (.dependencyFileNotFound p inner.key)), false)
    | none => runScript

/-- Embedding of `TaskExecutableState` (rusk.rs:339): `initial` is the
source's `Initialized` state, `processing` carries the current value of the
watch receiver, `done` the cached result. -/
inductive CellState where
  | initial (inner : TaskExecutableInner)
  | processing (val : Option TaskResult)
  | done (r : TaskResult)
deriving DecidableEq, Repr

/-- Embedding of `TaskExecutable::empty` (rusk.rs:206): the auto-materialized
cell for a File dependency with no task of its own, created directly in the
`Done(Ok(()))` state. -/
def TaskExecutable.empty : CellState := .done (.ok ())

/-- Embedding of `DigraphItem::children` for `TaskExecutable` (rusk.rs:370):
an `Initialized` cell exposes its `depends`; the other states expose no
children. -/
def cellChildren : CellState → List TaskKey
  | .initial inner => inner.depends
  | _ => []

/-- Lookup in an association list keyed by `TaskKey`, comparing keys the way
the Rust `HashMap` does, i.e. by the canonical string (taskkey.rs:220). -/
def kfind {α : Type} : List (TaskKey × α) → TaskKey → Option α
  | [], _ => none
  | p :: rest, k => if p.1.canon = k.canon then some p.2 else kfind rest k

/-- Removal of a key from an association list, by canonical string. -/
def kerase {α : Type} : List (TaskKey × α) → TaskKey → List (TaskKey × α)
  | [], _ => []
  | p :: rest, k => if p.1.canon = k.canon then kerase rest k else p :: kerase rest k

/-- Insertion into an association list, overwriting any entry with the same
canonical string, matching `HashMap::insert`. -/
def kinsert {α : Type} (m : List (TaskKey × α)) (k : TaskKey) (v : α) : List (TaskKey × α) :=
  (k, v) :: kerase m k

/-- Membership in a set of keys, by canonical string, matching a
`HashSet<TaskKey>` lookup. -/
def kmem (l : List TaskKey) (k : TaskKey) : Bool :=
  l.any (fun q => q.canon == k.canon)

/-- Embedding of `Task` (rusk.rs:98). -/
structure Task where
  envs : List (String × String)
  script : Option String
  cwd : NormarizedPath
  depends : List TaskKey
deriving DecidableEq, Repr

/-- Embedding of `TaskParseError` (rusk.rs:382); the opaque `anyhow::Error`
payload of `ScriptParseError` is dropped. -/
inductive TaskParseError where
  | directoryNotFound (cwd : NormarizedPath)
  | scriptParseError (key : TaskKey)
deriving DecidableEq, Repr

/-- Embedding of `str::lines` as used on scripts (rusk.rs:140): split on the
newline character, without a trailing empty line.  Carriage-return trimming
is not modelled; no claim depends on it. -/
def rustLines (s : String) : List String :=
  let parts := s.splitOn "\n"
  match parts.getLast? with
  | some "" => parts.dropLast
  | _ => parts

/-- The script-parsing loop of `into_executable` (rusk.rs:138): parse each
line with the shell parser and concatenate the items, failing at the first
line the parser rejects. -/
def parseScript (sh : Shell) : List String → Option (List String)
  | [] => some []
  | line :: rest =>
    match sh.parseLine line with
    | none => none
    | some items =>
      match parseScript sh rest with
      | none => none
      | some more => some (items ++ more)

/-- The dependency loop of `into_executable` (rusk.rs:162): every File
dependency gets a virtual empty cell unless an entry for it is already
present (`entry_ref(..).or_insert_with(TaskExecutable::empty)`). -/
def seedFileDeps (acc : List (TaskKey × CellState)) : List TaskKey → List (TaskKey × CellState)
  | [] => acc
  | dep :: rest =>
    match dep with
    | .file _ =>
      seedFileDeps
        (match kfind acc dep with
          | some _ => acc
          | none => kinsert acc dep TaskExecutable.empty) rest
    | .phony _ => seedFileDeps acc rest

/-- Embedding of `into_executable` (rusk.rs:127): for each task, parse its
script, require its working directory to exist, seed empty cells for its File
dependencies, and insert its own `Initialized` cell (overwriting a previously
seeded empty cell for the same key).  The registry is passed as a list of
entries, standing for the unspecified iteration order of the source
`HashMap`; `acc` is the map under construction. -/
def intoExecutable (fs : FS) (sh : Shell) (globalEnv : List (String × String)) :
    List (TaskKey × Task) → List (TaskKey × CellState) →
    Except TaskParseError (List (TaskKey × CellState))
  | [], acc => .ok acc
  | (key, task) :: rest, acc =>
    match parseScript sh (match task.script with | some s => rustLines s | none => []) with
    | none => .error (.scriptParseError key)
    | some items =>
      if fs.isDir task.cwd.abs then
        intoExecutable fs sh globalEnv rest
          (kinsert (seedFileDeps acc task.depends) key
            (.initial ⟨key, mergedEnvs globalEnv task.envs, items, task.cwd, task.depends⟩))
      else .error (.directoryNotFound task.cwd)

/-- Embedding of `TreeNode` (digraph.rs:12).  The source node holds the moved
`TaskExecutable` cell behind an `Rc` shared between every path that reaches
it; since `new_vec` moves each key's cell out of the map exactly once, the
embedding records the key, and execution reads and updates the cell through a
state map keyed by `TaskKey` — the shallow-embedding counterpart of the
shared cell. -/
inductive TreeNode where
  | mk (key : TaskKey) (children : List TreeNode)

/-- Embedding of `TreeNodeCreationError` (digraph.rs:22). -/
inductive TreeNodeCreationError where
  | itemNotFound (k : TaskKey)
  | circularDependency (k : TaskKey)
deriving DecidableEq, Repr

/-- Embedding of `RawOrNode` (digraph.rs:66): a map entry is either an
unexpanded cell or an already-expanded shared node. -/
inductive RawOrNode where
  | raw (c : CellState)
  | node (n : TreeNode)

mutual

/-- Embedding of `convert` (digraph.rs:70): expand the cell `raw` registered
under `name`; `parents` is the set of keys on the current root-to-node
expansion chain (`ParentsManager` inserts `name` on entry and removes it on
exit, modelled by consing onto a by-value list).  `fuel` bounds the recursion
depth, which the source bounds by the number of unexpanded entries; `none`
means the fuel ran out. -/
def convert (fuel : Nat) (name : TaskKey) (raw : CellState)
    (list : List (TaskKey × RawOrNode)) (parents : List TaskKey) :
    Option (Except TreeNodeCreationError (TreeNode × List (TaskKey × RawOrNode))) :=
  match fuel with
  | 0 => none
  | fuel + 1 =>
    match convertDeps fuel (cellChildren raw) list (name :: parents) [] with
    | none => none
    | some (.error e) => some (.error e)
    | some (.ok (children, list')) => some (.ok (.mk name children, list'))
termination_by (fuel, 0)

/-- The dependency loop inside `convert` (digraph.rs:79): a dependency on the
current expansion chain is a `CircularDependency`; a vacant entry is
`ItemNotFound`; a raw entry is removed, recursively expanded and reinserted
as a node; a node entry is reused directly.  `acc` collects the child nodes
in reverse order. -/
def convertDeps (fuel : Nat) (deps : List TaskKey) (list : List (TaskKey × RawOrNode))
    (parents : List TaskKey) (acc : List TreeNode) :
    Option (Except TreeNodeCreationError (List TreeNode × List (TaskKey × RawOrNode))) :=
  match deps with
  | [] => some (.ok (acc.reverse, list))
  | depName :: rest =>
    if kmem parents depName then some (.error (.circularDependency depName))
    else
      match kfind list depName with
      | none => some (.error (.itemNotFound depName))
      | some (.raw depItem) =>
        match convert fuel depName depItem (kerase list depName) parents with
        | none => none
        | some (.error e) => some (.error e)
        | some (.ok (node, list')) =>
          convertDeps fuel rest (kinsert list' depName (.node node)) parents (node :: acc)
      | some (.node depNode) =>
        convertDeps fuel rest (kinsert list depName (.node depNode)) parents (depNode :: acc)
termination_by (fuel, deps.length + 1)

end

/-- The target loop of `TreeNode::new_vec` (digraph.rs:113): each target is
removed from the map; a raw entry is expanded into a root with a fresh
ancestor set; an already-expanded node is skipped (and, exactly as in the
source, not reinserted); a missing entry is `ItemNotFound`.  `roots` collects
the roots in reverse order. -/
def newVecGo (fuel : Nat) (list : List (TaskKey × RawOrNode)) (targets : List TaskKey)
    (roots : List TreeNode) : Option (Except TreeNodeCreationError (List TreeNode)) :=
  match targets with
  | [] => some (.ok roots.reverse)
  | label :: rest =>
    match kfind list label with
    | none => some (.error (.itemNotFound label))
    | some item =>
      match item with
      | .raw raw =>
        match convert fuel label raw (kerase list label) [] with
        | none => none
        | some (.error e) => some (.error e)
        | some (.ok (node, list')) => newVecGo fuel list' rest (node :: roots)
      | .node _ => newVecGo fuel (kerase list label) rest roots

/-- Embedding of `TreeNode::new_vec` (digraph.rs:62): wrap every registry
entry as `Raw` and run the target loop. -/
def newVec (fuel : Nat) (m : List (TaskKey × CellState)) (targets : List TaskKey) :
    Option (Except TreeNodeCreationError (List TreeNode)) :=
  newVecGo fuel (m.map (fun p => (p.1, RawOrNode.raw p.2))) targets []

/-- Embedding of `TaskExecutable::as_future` (rusk.rs:209), sequentialized:
the cooperative runtime completes the `Initialized` to `Processing` to
`Done` transition without an intervening suspension once the inner future is
the only thing left to await, so the run of an `initial` cell executes the
inner future and lands in `done` in one step; a `processing` cell whose
receiver already holds a value returns a clone of it and caches it as `done`.
The `Bool` records whether the inner future was executed.  `none` stands for
the two situations a sequential run never reaches: a missing cell (the
source's cell lives inside the node itself) and awaiting an in-flight peer. -/
def runCell (fs : FS) (sh : Shell) (st : List (TaskKey × CellState)) (k : TaskKey) :
    Option (ExecOutcome × List (TaskKey × CellState) × Bool) :=
  match kfind st k with
  | none => none
  | some (.done r) => some (.normal r, st, false)
  | some (.processing (some r)) => some (.normal r, kinsert st k (.done r), false)
  | some (.processing none) => none
  | some (.initial inner) =>
    match intoFuture fs sh inner with
    | (.panicked, _) => some (.panicked, st, true)
    | (.normal r, _) => some (.normal r, kinsert st k (.done r), true)

/-- Embedding of `exec_all` and `exec_node` (rusk.rs:187), sequentialized for
the single-threaded cooperative runtime: the nodes are driven in order; each
node first drives its children (stopping at the first non-`Ok` outcome, as
`try_join_all` surfaces the first failure) and only then runs its own cell.
Returns the outcome, the updated cell states, the keys whose inner future was
executed (in execution order), and the log of every cell run with its
outcome. -/
def execForest (fs : FS) (sh : Shell) (st : List (TaskKey × CellState)) :
    List TreeNode →
    Option (ExecOutcome × List (TaskKey × CellState) × List TaskKey × List (TaskKey × ExecOutcome))
  | [] => some (.normal (.ok ()), st, [], [])
  | .mk k children :: rest =>
    match execForest fs sh st children with
    | none => none
    | some (.normal (.ok _), st1, tr1, log1) =>
      match runCell fs sh st1 k with
      | none => none
      | some (out, st2, ex) =>
        match out with
        | .normal (.ok _) =>
          match execForest fs sh st2 rest with
          | none => none
          | some (out3, st3, tr3, log3) =>
            some (out3, st3, (tr1 ++ if ex then [k] else []) ++ tr3, (log1 ++ [(k, out)]) ++ log3)
        | _ => some (out, st2, tr1 ++ if ex then [k] else [], log1 ++ [(k, out)])
    | some (out, st1, tr1, log1) => some (out, st1, tr1, log1)

/-- Embedding of `RuskError` (rusk.rs:24). -/
inductive RuskError where
  | invalidArgument (e : TaskKeyParseError)
  | treeNodeBroken (e : TreeNodeCreationError)
  | taskUnparsable (e : TaskParseError)
  | taskFailed (e : TaskError)
deriving DecidableEq, Repr

/-- Embedding of `Rusk::exec` (rusk.rs:74) after argument parsing: convert
the registry into executables, resolve the forest, then run it.  The returned
list is the keys whose inner future was executed — empty whenever anything
fails before execution starts.  A panic aborts the process and is modelled as
`none`, like fuel exhaustion. -/
def ruskExec (fuel : Nat) (fs : FS) (sh : Shell) (globalEnv : List (String × String))
    (tasks : List (TaskKey × Task)) (targets : List TaskKey) :
    Option (Except RuskError Unit × List TaskKey) :=
  match intoExecutable fs sh globalEnv tasks [] with
  | .error e => some (.error (.taskUnparsable e), [])
  | .ok m =>
    match newVec fuel m targets with
    | none => none
    | some (.error e) => some (.error (.treeNodeBroken e), [])
    | some (.ok forest) =>
      match execForest fs sh m forest with
      | none => none
      | some (.normal (.ok _), _, tr, _) => some (.ok (), tr)
      | some (.normal (.error e), _, tr, _) => some (.error (.taskFailed e), tr)
      | some (.panicked, _, _, _) => none

/-- A parsed task body (`TaskDeserializerInner`, fs.rs:371), before key
resolution. -/
structure RawTask where
  envs : List (String × String)
  script : Option String
  depends : List TaskKeyRelative
  cwd : String
deriving DecidableEq, Repr

/-- Embedding of `RuskfileDeserializeError` (fs.rs:304); the
`DeserializeError` variant wraps the external toml decoder and is out of
scope (composer entries arrive already decoded or marked failed). -/
inductive RuskfileDeserializeError where
  | duplicatedTaskName (k : TaskKey)
deriving DecidableEq, Repr

/-- Resolution of one declaration's body against its file's directory
(fs.rs:333): the cwd is joined and normalized, each dependency resolved. -/
def resolveRawTask (normJoin : String → String → NormarizedPath) (dir : String)
    (t : RawTask) : Task :=
  { envs := t.envs
    script := t.script
    cwd := normJoin dir t.cwd
    depends := t.depends.map (TaskKeyRelative.intoTaskKey normJoin dir) }

/-- The declarations contributed by a composer, in iteration order: every
task of every successfully parsed file, its key and body resolved against the
file's directory (fs.rs:316; `into_parent` of the config path is the
directory carried here). -/
def composerDecls (normJoin : String → String → NormarizedPath)
    (files : List (String × Except String (List (TaskKeyRelative × RawTask)))) :
    List (TaskKey × Task) :=
  files.foldr
    (fun file acc =>
      match file.2 with
      | .error _ => acc
      | .ok ts =>
        ts.map (fun p => (p.1.intoTaskKey normJoin file.1, resolveRawTask normJoin file.1 p.2))
          ++ acc) []

/-- The insertion loop of fs.rs:329: insert each declaration, failing with
`DuplicatedTaskName` when an entry with the same key is already present. -/
def registryInsertAll : List (TaskKey × Task) → List (TaskKey × Task) →
    Except RuskfileDeserializeError (List (TaskKey × Task))
  | [], acc => .ok acc
  | (k, t) :: rest, acc =>
    match kfind acc k with
    | some _ => .error (.duplicatedTaskName k)
    | none => registryInsertAll rest (kinsert acc k t)

/-- Embedding of `TryFrom<RuskfileComposer> for HashMap<TaskKey, Task>`
(fs.rs:311): the two nested loops flattened over the declaration list. -/
def composerTryInto (normJoin : String → String → NormarizedPath)
    (files : List (String × Except String (List (TaskKeyRelative × RawTask)))) :
    Except RuskfileDeserializeError (List (TaskKey × Task)) :=
  registryInsertAll (composerDecls normJoin files) []

/-- A filesystem oracle for witnesses: no file has metadata, nothing exists,
every path is a directory. -/
def fsTrivial : FS := ⟨fun _ => none, fun _ => false, fun _ => true⟩

/-- A shell oracle for witnesses: every line parses to no items, every script
exits with code zero. -/
def shTrivial : Shell := ⟨fun _ => some [], fun _ _ _ => 0⟩

/-- A task with no environment, no script and no dependencies beyond the
given list, rooted at the given working directory. -/
def simpleTask (cwd : NormarizedPath) (deps : List TaskKey) : Task :=
  ⟨[], none, cwd, deps⟩

/-- All keys occurring in a forest, root first. -/
def forestKeys : List TreeNode → List TaskKey
  | [] => []
  | .mk k children :: rest => k :: (forestKeys children ++ forestKeys rest)

/-- All keys occurring in one tree. -/
def treeKeys (n : TreeNode) : List TaskKey := forestKeys [n]

/-- The cell registered for `k` is finalized. -/
def IsDoneAt (st : List (TaskKey × CellState)) (k : TaskKey) : Prop :=
  ∃ r, kfind st k = some (.done r)

/-- The cell registered for `k` has never started. -/
def IsInitAt (st : List (TaskKey × CellState)) (k : TaskKey) : Prop :=
  ∃ i, kfind st k = some (.initial i)

/-- No cell is an in-flight `processing` cell without a published value; the
states `into_executable` produces satisfy this, and a sequential run
preserves it. -/
def NoPendingAt (st : List (TaskKey × CellState)) : Prop :=
  ∀ k, kfind st k ≠ some (.processing none)

/-- The resolver invariant tying the evolving `RawOrNode` map to the original
executables map `m`: every entry's key is a key of `m`, and every key inside
an already-expanded node is a key of `m`. -/
def ResolverInv (m : List (TaskKey × CellState)) (list : List (TaskKey × RawOrNode)) : Prop :=
  (∀ k, (kfind list k).isSome → (kfind m k).isSome) ∧
  (∀ d n, kfind list d = some (.node n) → ∀ k ∈ treeKeys n, (kfind m k).isSome)

/-- The resolved keys of all declarations of a composer, in iteration
order. -/
def declaredKeys (normJoin : String → String → NormarizedPath)
    (files : List (String × Except String (List (TaskKeyRelative × RawTask)))) :
    List TaskKey :=
  (composerDecls normJoin files).map (fun p => p.1)

/-- The File dependencies of a dependency list, in order. -/
def fileDeps : List TaskKey → List NormarizedPath
  | [] => []
  | .file p :: rest => p :: fileDeps rest
  | .phony _ :: rest => fileDeps rest

/-- What a sequential run of a forest guarantees, relating the cell states
before (`st`) and after (`st'`), the outcome, the executed keys `tr` and the
call log: the key domain is unchanged; finalized cells stay finalized with
the same result; no cell becomes `initial`; no unpublished `processing` cell
appears; the executed keys are pairwise distinct (the at-most-once
guarantee); every executed key was un-started before and (except possibly
the panicking last one) is finalized after; and every logged normal result
is exactly the finalized result of its cell, so all callers of one key
receive the same result. -/
def ExecPost (st st' : List (TaskKey × CellState)) (out : ExecOutcome)
    (tr : List TaskKey) (log : List (TaskKey × ExecOutcome)) : Prop :=
  (∀ k, (kfind st k).isSome ↔ (kfind st' k).isSome) ∧
  (∀ k r, kfind st k = some (.done r) → kfind st' k = some (.done r)) ∧
  (∀ k i, kfind st' k = some (.initial i) → kfind st k = some (.initial i)) ∧
  (NoPendingAt st → NoPendingAt st') ∧
  tr.Pairwise (fun a b => a.canon ≠ b.canon) ∧
  (∀ k ∈ tr, IsInitAt st k) ∧
  (out ≠ .panicked → ∀ k ∈ tr, IsDoneAt st' k) ∧
  (out = .panicked → ∃ tr0 kl, tr = tr0 ++ [kl] ∧ ∀ k ∈ tr0, IsDoneAt st' k) ∧
  (∀ k r, (k, ExecOutcome.normal r) ∈ log → kfind st' k = some (.done r))

/-! Theorems.  Each claim of the specification gets one theorem named after
it; helper lemmas are shared. -/

/-- Claim C8: parsing a string as a relative task key returns `Empty` for
the empty string; returns a File key carrying the raw string whenever the
string contains a slash or a dot; otherwise succeeds exactly when the string
matches the phony shape (one ASCII letter, then ASCII alphanumerics,
underscore or hyphen — so a digit-initial name is a parse error, surfaced as
a phony-name error); and on success the stored string form equals the
input. -/
theorem claim_C8 :
    (TaskKeyRelative.tryFrom "" = .error .empty) ∧
    (∀ s : String, s ≠ "" → (strContains s '/' || strContains s '.') = true →
      TaskKeyRelative.tryFrom s = .ok (.file ⟨s⟩)) ∧
    (∀ s : String, (strContains s '/' || strContains s '.') = false →
      ((∃ k, TaskKeyRelative.tryFrom s = .ok k) ↔ phonyShape s = true)) ∧
    (∀ s : String, s ≠ "" → (strContains s '/' || strContains s '.') = false →
      phonyShape s = false → ∃ msg, TaskKeyRelative.tryFrom s = .error (.phonyMsg msg)) ∧
    (∀ s k, TaskKeyRelative.tryFrom s = .ok k → k.stored = s) := by
  refine ⟨rfl, ?_, ?_, ?_, ?_⟩
  · intro s hs hc
    simp [TaskKeyRelative.tryFrom, PathTaskString.tryFrom, hs, hc]
  · intro s hc
    by_cases hs : s = ""
    · subst hs
      constructor
      · rintro ⟨k, hk⟩
        simp [TaskKeyRelative.tryFrom] at hk
      · intro h
        simp [phonyShape] at h
    · simp only [TaskKeyRelative.tryFrom, if_neg hs, hc, Bool.false_eq_true, if_false]
      unfold PhonyTaskString.tryFrom
      simp only [if_neg hs]
      constructor
      · rintro ⟨k, hk⟩
        rcases hd : s.data with _ | ⟨c, cs⟩ <;> rw [hd] at hk
        · simp at hk
        · by_cases ha : c.isAlpha
          · by_cases hall : cs.all (fun ch => ch.isAlphanum || ch == '_' || ch == '-')
            · simp [phonyShape, hd, ha, hall]
            · simp [ha, hall] at hk
          · simp [ha] at hk
      · intro hshape
        unfold phonyShape at hshape
        rcases hd : s.data with _ | ⟨c, cs⟩ <;> rw [hd] at hshape
        · simp at hshape
        · simp only [Bool.and_eq_true] at hshape
          exact ⟨.phony ⟨s⟩, by simp [hd, hshape.1, hshape.2]⟩
  · intro s hs hc hshape
    simp only [TaskKeyRelative.tryFrom, if_neg hs, hc, Bool.false_eq_true, if_false]
    unfold PhonyTaskString.tryFrom
    simp only [if_neg hs]
    unfold phonyShape at hshape
    rcases hd : s.data with _ | ⟨c, cs⟩ <;> rw [hd] at hshape
    · exact ⟨_, rfl⟩
    · by_cases ha : c.isAlpha
      · by_cases hall : cs.all (fun ch => ch.isAlphanum || ch == '_' || ch == '-')
        · simp [ha, hall] at hshape
        · exact ⟨"Only ascii letters, digits, underscore and hyphen are allowed",
            by simp [ha, hall]⟩
      · exact ⟨"First character must be alphabetic", by simp [ha]⟩
  · intro s k h
    by_cases hs : s = ""
    · subst hs
      simp [TaskKeyRelative.tryFrom] at h
    · by_cases hc : (strContains s '/' || strContains s '.') = true
      · simp [TaskKeyRelative.tryFrom, PathTaskString.tryFrom, hs, hc] at h
        subst h
        rfl
      · simp only [Bool.not_eq_true] at hc
        simp only [TaskKeyRelative.tryFrom, if_neg hs, hc, Bool.false_eq_true, if_false] at h
        unfold PhonyTaskString.tryFrom at h
        simp only [if_neg hs] at h
        rcases hd : s.data with _ | ⟨c, cs⟩ <;> rw [hd] at h
        · simp at h
        · by_cases ha : c.isAlpha
          · by_cases hall : cs.all (fun ch => ch.isAlphanum || ch == '_' || ch == '-')
            · simp [ha, hall] at h
              subst h
              rfl
            · simp [ha, hall] at h
          · simp [ha] at h

/-- Witness for C8 at concrete inputs: a path-like string parses to a File
key carrying it unchanged, and a digit-initial name is rejected. -/
theorem claim_C8_witness :
    TaskKeyRelative.tryFrom "a/b" = .ok (.file ⟨"a/b"⟩) ∧
    ¬ (∃ k, TaskKeyRelative.tryFrom "9ab" = .ok k) := by
  constructor
  · exact claim_C8.2.1 "a/b" (by decide) (by decide)
  · intro h
    have := (claim_C8.2.2.1 "9ab" (by decide)).mp h
    simp [phonyShape] at this

/-- Claim C5: `TaskKey` equality (and the string it hashes) coincides with
equality of the canonical string form, the canonical form of a File key
being its normalized absolute path; a phony key (whose name has the parsed
phony shape, hence starts with an ASCII letter) is never equal to a File key
(whose absolute path starts with the path separator); and two File keys are
equal exactly when their absolute paths are. -/
theorem claim_C5 :
    (∀ a b : TaskKey, a.keyEq b ↔ a.canon = b.canon) ∧
    (∀ (n : PhonyTaskString) (p : NormarizedPath),
      phonyShape n.inner = true → p.abs.data.head? = some '/' →
      ¬ (TaskKey.phony n).keyEq (.file p)) ∧
    (∀ p q : NormarizedPath, (TaskKey.file p).keyEq (.file q) ↔ p.abs = q.abs) := by
  refine ⟨fun a b => Iff.rfl, ?_, fun p q => Iff.rfl⟩
  intro n p hshape habs heq
  have hstr : n.inner = p.abs := heq
  rw [hstr] at hshape
  unfold phonyShape at hshape
  rcases hd : p.abs.data with _ | ⟨c, cs⟩ <;> rw [hd] at habs
  · simp at habs
  · rw [hd] at hshape
    simp only [List.head?, Option.some.injEq] at habs
    subst habs
    simp at hshape

/-- Witness for C5 at a concrete phony name and a concrete absolute path. -/
theorem claim_C5_witness :
    ¬ (TaskKey.phony ⟨"foo"⟩).keyEq (.file ⟨"/x/foo"⟩) :=
  claim_C5.2.1 ⟨"foo"⟩ ⟨"/x/foo"⟩ (by decide) (by decide)

/-- The last-entry-wins lookup of an environment list, with an arbitrary
initial accumulator: the fold result is the fold from `none`, falling back to
the accumulator. -/
theorem envGet_foldl (k : String) :
    ∀ (t : List (String × String)) (a : Option String),
      t.foldl (fun acc p => if p.1 = k then some p.2 else acc) a
        = match t.foldl (fun acc p => if p.1 = k then some p.2 else acc) none with
          | some v => some v
          | none => a := by
  intro t
  induction t with
  | nil => intro a; rfl
  | cons p rest ih =>
    intro a
    by_cases hp : p.1 = k
    · simp only [List.foldl_cons, if_pos hp]
      rw [ih (some p.2)]
      generalize rest.foldl (fun acc p => if p.1 = k then some p.2 else acc) none = X
      cases X <;> rfl
    · simp only [List.foldl_cons, if_neg hp]
      exact ih a

/-- Claim C7: in the merged environment handed to the shell
(rusk.rs:177), a name defined in the task's own envs gets the task's value
(task-local entries override the global ones), and a name defined only in the
global envs keeps its global value. -/
theorem claim_C7 :
    ∀ (globalEnv taskEnvs : List (String × String)) (name : String),
      (∀ v, envGet taskEnvs name = some v →
        envGet (mergedEnvs globalEnv taskEnvs) name = some v) ∧
      (envGet taskEnvs name = none →
        envGet (mergedEnvs globalEnv taskEnvs) name = envGet globalEnv name) := by
  intro globalEnv taskEnvs name
  have hbase : envGet (mergedEnvs globalEnv taskEnvs) name
      = match envGet taskEnvs name with
        | some v => some v
        | none => envGet globalEnv name := by
    unfold mergedEnvs envGet
    rw [List.foldl_append]
    exact envGet_foldl name taskEnvs _
  constructor
  · intro v hv
    rw [hbase, hv]
  · intro hnone
    rw [hbase, hnone]

/-- Witness for C7: with global `A=1, B=2` and task `A=9`, the merged
environment yields the task's `A` and the global `B`. -/
theorem claim_C7_witness :
    envGet (mergedEnvs [("A", "1"), ("B", "2")] [("A", "9")]) "A" = some "9" ∧
    envGet (mergedEnvs [("A", "1"), ("B", "2")] [("A", "9")]) "B" = some "2" := by
  constructor
  · exact (claim_C7 [("A", "1"), ("B", "2")] [("A", "9")] "A").1 "9" (by decide)
  · exact (claim_C7 [("A", "1"), ("B", "2")] [("A", "9")] "B").2 (by decide)

/-- Claim C6 is a code bug: when the staleness check of a File task reaches
the modification-time comparison and a dependency's metadata (whose stat
succeeded) has no modification time available, rusk.rs:292 calls
`.modified().unwrap()` — despite its own comment claiming this was checked —
and panics instead of returning `FailedToGetFileMetadata`; only the target's
own missing modification time is mapped to that error (rusk.rs:288).  This
theorem evaluates both sides at concrete inputs: a dependency with
unavailable mtime panics, a target with unavailable mtime errors as the
claim states. -/
theorem claim_C6_bug :
    intoFuture
      ⟨fun s => if s = "/a/in" then some ⟨none⟩
        else if s = "/a/out" then some ⟨some 5⟩ else none,
        fun _ => false, fun _ => true⟩
      shTrivial
      ⟨.file ⟨"/a/out"⟩, [], [], ⟨"/a"⟩, [.file ⟨"/a/in"⟩]⟩
      = (.panicked, false) ∧
    intoFuture
      ⟨fun s => if s = "/a/in" then some ⟨some 3⟩
        else if s = "/a/out" then some ⟨none⟩ else none,
        fun _ => false, fun _ => true⟩
      shTrivial
      ⟨.file ⟨"/a/out"⟩, [], [], ⟨"/a"⟩, [.file ⟨"/a/in"⟩]⟩
      = (.normal (.error .failedToGetFileMetadata), false) := by
  constructor <;> rfl

/-- When every File dependency's metadata call succeeds, the collection loop
returns exactly those metadata values, in dependency order. -/
theorem collectDepMetas_ok (fs : FS) (key : TaskKey) :
    ∀ deps : List TaskKey, (∀ p ∈ fileDeps deps, (fs.metadata p.abs).isSome) →
      collectDepMetas fs key deps
        = .ok ((fileDeps deps).filterMap (fun p => fs.metadata p.abs)) := by
  intro deps
  induction deps with
  | nil => intro _; rfl
  | cons d rest ih =>
    intro h
    cases d with
    | file p =>
      have hp : (fs.metadata p.abs).isSome := h p (by simp [fileDeps])
      rcases hmd : fs.metadata p.abs with _ | md
      · rw [hmd] at hp; simp at hp
      · simp only [collectDepMetas, hmd]
        rw [ih (fun q hq => h q (by simp [fileDeps, hq]))]
        simp [fileDeps, hmd]
    | phony nm =>
      simp only [collectDepMetas, fileDeps]
      exact ih (fun q hq => h q (by simp [fileDeps, hq]))

/-- `filterMap` keeps the length when the function succeeds everywhere. -/
theorem filterMap_length_all_isSome {α β : Type} (f : α → Option β) :
    ∀ l : List α, (∀ a ∈ l, (f a).isSome) → (l.filterMap f).length = l.length := by
  intro l
  induction l with
  | nil => intro _; rfl
  | cons a rest ih =>
    intro h
    rcases hfa : f a with _ | b
    · have := h a (by simp); rw [hfa] at this; simp at this
    · simp [List.filterMap_cons, hfa, ih (fun x hx => h x (by simp [hx]))]

/-- There are at most as many File dependencies as dependencies. -/
theorem fileDeps_length_le : ∀ deps : List TaskKey, (fileDeps deps).length ≤ deps.length := by
  intro deps
  induction deps with
  | nil => simp [fileDeps]
  | cons d rest ih =>
    cases d with
    | file p => simp only [fileDeps, List.length_cons]; omega
    | phony nm => simp only [fileDeps, List.length_cons]; omega

/-- The File dependencies exhaust the dependencies exactly when no dependency
is phony. -/
theorem fileDeps_length_eq_iff :
    ∀ deps : List TaskKey,
      ((fileDeps deps).length = deps.length ↔ ∀ d ∈ deps, ∃ p, d = .file p) := by
  intro deps
  induction deps with
  | nil => simp [fileDeps]
  | cons d rest ih =>
    cases d with
    | file p =>
      simp only [fileDeps, List.length_cons, Nat.add_right_cancel_iff, ih, List.mem_cons]
      constructor
      · rintro h d' (rfl | hd')
        · exact ⟨p, rfl⟩
        · exact h d' hd'
      · intro h d' hd'
        exact h d' (Or.inr hd')
    | phony nm =>
      have hle := fileDeps_length_le rest
      simp only [fileDeps, List.length_cons]
      constructor
      · intro h; omega
      · intro h
        rcases h (.phony nm) (by simp) with ⟨p, hp⟩
        cases hp

/-- Behaviour of the modification-time loop when every collected metadata has
an available modification time: it never panics, and it skips exactly when
every dependency is strictly older than the target. -/
theorem checkDepMtimes_spec (t : Nat) :
    ∀ ms : List FileMeta, (∀ m ∈ ms, (m.modified).isSome) →
      (checkDepMtimes t ms ≠ .panicked) ∧
      (checkDepMtimes t ms = .skipTask ↔
        ∀ m ∈ ms, ∀ dt, m.modified = some dt → dt < t) := by
  intro ms
  induction ms with
  | nil =>
    intro _
    exact ⟨by simp [checkDepMtimes], by simp [checkDepMtimes]⟩
  | cons m rest ih =>
    intro h
    rcases hmd : m.modified with _ | dt
    · have := h m (by simp); rw [hmd] at this; simp at this
    · have ih' := ih (fun x hx => h x (by simp [hx]))
      by_cases hle : t ≤ dt
      · refine ⟨by simp [checkDepMtimes, hmd, hle], ?_, ?_⟩
        · intro hs; simp [checkDepMtimes, hmd, hle] at hs
        · intro hall
          have := hall m (by simp) dt hmd
          omega
      · have hred : checkDepMtimes t (m :: rest) = checkDepMtimes t rest := by
          simp [checkDepMtimes, hmd, hle]
        refine ⟨by rw [hred]; exact ih'.1, ?_⟩
        rw [hred, ih'.2]
        constructor
        · intro hall m' hm' dt' hdt'
          rcases List.mem_cons.mp hm' with rfl | hm'
          · rw [hmd] at hdt'
            cases hdt'
            omega
          · exact hall m' hm' dt' hdt'
        · intro hall m' hm' dt' hdt'
          exact hall m' (List.mem_cons_of_mem _ hm') dt' hdt'

/-- The existence loop finds nothing missing exactly when every File
dependency exists. -/
theorem firstMissingDep_none_iff (fs : FS) :
    ∀ deps : List TaskKey,
      (firstMissingDep fs deps = none ↔ ∀ p ∈ fileDeps deps, fs.existsOk p.abs = true) := by
  intro deps
  induction deps with
  | nil => simp [firstMissingDep, fileDeps]
  | cons d rest ih =>
    cases d with
    | file p =>
      by_cases he : fs.existsOk p.abs
      · simp only [firstMissingDep, if_pos he, fileDeps, List.mem_cons, ih]
        constructor
        · rintro h q (rfl | hq)
          · exact he
          · exact h q hq
        · intro h q hq
          exact h q (Or.inr hq)
      · simp only [firstMissingDep, if_neg he, fileDeps]
        constructor
        · intro h; cases h
        · intro h
          exact absurd (h p (by simp)) he
    | phony nm =>
      simp only [firstMissingDep, fileDeps]
      exact ih

/-- Behaviour of `into_future` on a phony key: a missing File dependency
yields `DependencyFileNotFound` without running the shell, otherwise the
shell runs. -/
theorem intoFuture_phony (fs : FS) (sh : Shell) (inner : TaskExecutableInner)
    (nm : PhonyTaskString) (hkey : inner.key = .phony nm) :
    (firstMissingDep fs inner.depends = none → (intoFuture fs sh inner).2 = true) ∧
    (∀ p, firstMissingDep fs inner.depends = some p →
      intoFuture fs sh inner
        = (.normal (.error (.dependencyFileNotFound p inner.key)), false)) := by
  constructor
  · intro hnone
    simp [intoFuture, hkey, hnone]
  · intro p hsome
    simp [intoFuture, hkey, hsome]

/-- Case analysis of `into_future` on a File key when every File dependency
stats successfully with an available modification time: either some
dependency is phony and the shell runs, or the target does not stat and the
shell runs, or the target's own modification time is unavailable and the
task errors, or some dependency is at least as new as the target and the
shell runs, or every dependency is strictly older and the task is skipped
with `Ok`. -/
theorem intoFuture_file_cases (fs : FS) (sh : Shell) (inner : TaskExecutableInner)
    (f : NormarizedPath) (hkey : inner.key = .file f)
    (hd : ∀ p ∈ fileDeps inner.depends,
      ∃ md, fs.metadata p.abs = some md ∧ (md.modified).isSome) :
    (¬ (∀ d ∈ inner.depends, ∃ p, d = .file p) ∧ (intoFuture fs sh inner).2 = true) ∨
    ((∀ d ∈ inner.depends, ∃ p, d = .file p) ∧ fs.metadata f.abs = none ∧
      (intoFuture fs sh inner).2 = true) ∨
    (∃ md, (∀ d ∈ inner.depends, ∃ p, d = .file p) ∧ fs.metadata f.abs = some md ∧
      md.modified = none ∧
      intoFuture fs sh inner = (.normal (.error .failedToGetFileMetadata), false)) ∨
    (∃ md t, (∀ d ∈ inner.depends, ∃ p, d = .file p) ∧ fs.metadata f.abs = some md ∧
      md.modified = some t ∧
      (∃ p ∈ fileDeps inner.depends, ∃ md' dt, fs.metadata p.abs = some md' ∧
        md'.modified = some dt ∧ t ≤ dt) ∧
      (intoFuture fs sh inner).2 = true) ∨
    (∃ md t, (∀ d ∈ inner.depends, ∃ p, d = .file p) ∧ fs.metadata f.abs = some md ∧
      md.modified = some t ∧
      (∀ p ∈ fileDeps inner.depends, ∀ md' dt, fs.metadata p.abs = some md' →
        md'.modified = some dt → dt < t) ∧
      intoFuture fs sh inner = (.normal (.ok ()), false)) := by
  have hsome : ∀ p ∈ fileDeps inner.depends, (fs.metadata p.abs).isSome := by
    intro p hp
    rcases hd p hp with ⟨md, hmd, _⟩
    rw [hmd]; rfl
  have hcol := collectDepMetas_ok fs inner.key inner.depends hsome
  rw [hkey] at hcol
  set metas := (fileDeps inner.depends).filterMap (fun p => fs.metadata p.abs) with hmetas
  have hlen : metas.length = (fileDeps inner.depends).length :=
    filterMap_length_all_isSome _ _ hsome
  have hmem : ∀ m ∈ metas, (m.modified).isSome := by
    intro m hm
    rw [hmetas] at hm
    rcases List.mem_filterMap.mp hm with ⟨p, hp, hfp⟩
    rcases hd p hp with ⟨md, hmd, hmod⟩
    rw [hmd] at hfp
    cases hfp
    exact hmod
  by_cases hall : ∀ d ∈ inner.depends, ∃ p, d = .file p
  case neg =>
    left
    refine ⟨hall, ?_⟩
    have hne : inner.depends.length ≠ metas.length := by
      rw [hlen]
      intro h
      exact hall ((fileDeps_length_eq_iff inner.depends).mp h.symm)
    simp [intoFuture, hkey, hcol, hne]
  case pos =>
    have heq : inner.depends.length = metas.length := by
      rw [hlen]
      exact ((fileDeps_length_eq_iff inner.depends).mpr hall).symm
    rcases hft : fs.metadata f.abs with _ | md
    · right; left
      refine ⟨hall, rfl, ?_⟩
      simp [intoFuture, hkey, hcol, heq, hft]
    · rcases hmod : md.modified with _ | t
      · right; right; left
        exact ⟨md, hall, rfl, hmod, by simp [intoFuture, hkey, hcol, heq, hft, hmod]⟩
      · have hspec := checkDepMtimes_spec t metas hmem
        cases hchk : checkDepMtimes t metas with
        | runScript =>
          right; right; right; left
          refine ⟨md, t, hall, rfl, hmod, ?_, ?_⟩
          · by_contra hno
            push_neg at hno
            have hskip : checkDepMtimes t metas = .skipTask := by
              rw [hspec.2]
              intro m hm dt hdt
              rw [hmetas] at hm
              rcases List.mem_filterMap.mp hm with ⟨p, hp, hfp⟩
              exact hno p hp m dt hfp hdt
            rw [hchk] at hskip
            cases hskip
          · simp [intoFuture, hkey, hcol, heq, hft, hmod, hchk]
        | skipTask =>
          right; right; right; right
          refine ⟨md, t, hall, rfl, hmod, ?_,
            by simp [intoFuture, hkey, hcol, heq, hft, hmod, hchk]⟩
          intro p hp md' dt hmd' hdt
          have hskip := hspec.2.mp hchk
          have hmem' : md' ∈ metas := by
            rw [hmetas]
            exact List.mem_filterMap.mpr ⟨p, hp, hmd'⟩
          exact hskip md' hmem' dt hdt
        | panicked => exact absurd hchk hspec.1

/-- Claim C2: `run()` on a non-empty task follows the make-style staleness
rule.  A phony task runs its script once its File dependencies all exist, and
never returns `Ok` without running it; a File task (when every File
dependency stats with an available mtime) returns `Ok` without invoking the
shell exactly when the target stats, no dependency is phony, and the
target's mtime strictly exceeds every dependency's; and the shell is invoked
whenever some dependency is phony, or the target does not stat, or some
dependency's mtime is at least the target's. -/
theorem claim_C2 (fs : FS) (sh : Shell) (inner : TaskExecutableInner) :
    (∀ nm, inner.key = .phony nm →
      ((∀ p ∈ fileDeps inner.depends, fs.existsOk p.abs = true) →
        (intoFuture fs sh inner).2 = true) ∧
      ((intoFuture fs sh inner).1 = .normal (.ok ()) →
        (intoFuture fs sh inner).2 = true)) ∧
    (∀ f, inner.key = .file f →
      (∀ p ∈ fileDeps inner.depends,
        ∃ md, fs.metadata p.abs = some md ∧ (md.modified).isSome) →
      ((intoFuture fs sh inner = (.normal (.ok ()), false)) ↔
        (∃ md t, fs.metadata f.abs = some md ∧ md.modified = some t ∧
          (∀ d ∈ inner.depends, ∃ p, d = .file p) ∧
          (∀ p ∈ fileDeps inner.depends, ∀ md' dt, fs.metadata p.abs = some md' →
            md'.modified = some dt → dt < t))) ∧
      (((∃ d ∈ inner.depends, ∃ nm, d = .phony nm) ∨ fs.metadata f.abs = none ∨
          (∃ md t, fs.metadata f.abs = some md ∧ md.modified = some t ∧
            ∃ p ∈ fileDeps inner.depends, ∃ md' dt, fs.metadata p.abs = some md' ∧
              md'.modified = some dt ∧ t ≤ dt)) →
        (intoFuture fs sh inner).2 = true)) := by
  constructor
  · intro nm hkey
    have hph := intoFuture_phony fs sh inner nm hkey
    constructor
    · intro hex
      exact hph.1 ((firstMissingDep_none_iff fs inner.depends).mpr hex)
    · intro hok
      rcases hmiss : firstMissingDep fs inner.depends with _ | p
      · exact hph.1 hmiss
      · have hres := hph.2 p hmiss
        rw [hres] at hok
        simp at hok
  · intro f hkey hd
    have hcases := intoFuture_file_cases fs sh inner f hkey hd
    constructor
    · constructor
      · intro heq
        rcases hcases with ⟨_, hsnd⟩ | ⟨_, _, hsnd⟩ | ⟨md, _, _, _, hres⟩ |
          ⟨md, t, _, _, _, _, hsnd⟩ | ⟨md, t, hall, hft, hmod, hlt, _⟩
        · rw [heq] at hsnd; simp at hsnd
        · rw [heq] at hsnd; simp at hsnd
        · rw [heq] at hres; simp at hres
        · rw [heq] at hsnd; simp at hsnd
        · exact ⟨md, t, hft, hmod, hall, hlt⟩
      · rintro ⟨md, t, hft, hmod, hall, hlt⟩
        rcases hcases with ⟨hna, _⟩ | ⟨_, hft', _⟩ | ⟨md', _, hft', hmod', _⟩ |
          ⟨md', t', _, hft', hmod', ⟨p, hp, md'', dt, hmd'', hdt'', hge⟩, _⟩ |
          ⟨_, _, _, _, _, _, hres⟩
        · exact absurd hall hna
        · rw [hft] at hft'; cases hft'
        · rw [hft] at hft'
          injection hft' with h
          subst h
          rw [hmod] at hmod'
          cases hmod'
        · rw [hft] at hft'
          injection hft' with h
          subst h
          rw [hmod] at hmod'
          injection hmod' with h2
          subst h2
          have := hlt p hp md'' dt hmd'' hdt''
          omega
        · exact hres
    · intro hrun
      rcases hcases with ⟨_, hsnd⟩ | ⟨_, _, hsnd⟩ | ⟨md, hall, hft, hmod, hres⟩ |
        ⟨_, _, _, _, _, _, hsnd⟩ | ⟨md, t, hall, hft, hmod, hlt, _⟩
      · exact hsnd
      · exact hsnd
      · rcases hrun with ⟨d, hdmem, nm, hdph⟩ | hnone | ⟨md2, t2, hft2, hmod2, _⟩
        · rcases hall d hdmem with ⟨p, hp⟩
          rw [hdph] at hp
          cases hp
        · rw [hft] at hnone; cases hnone
        · rw [hft] at hft2
          injection hft2 with h
          subst h
          rw [hmod] at hmod2
          cases hmod2
      · exact hsnd
      · rcases hrun with ⟨d, hdmem, nm, hdph⟩ | hnone |
          ⟨md2, t2, hft2, hmod2, p, hp, md'', dt, hmd'', hdt'', hge⟩
        · rcases hall d hdmem with ⟨p, hp⟩
          rw [hdph] at hp
          cases hp
        · rw [hft] at hnone; cases hnone
        · rw [hft] at hft2
          injection hft2 with h
          subst h
          rw [hmod] at hmod2
          injection hmod2 with h2
          subst h2
          have := hlt p hp md'' dt hmd'' hdt''
          omega

/-- Witness for C2: a File target newer than its single File dependency is
skipped with `Ok` and no shell invocation. -/
theorem claim_C2_witness :
    intoFuture
      ⟨fun s => if s = "/d" then some ⟨some 5⟩
        else if s = "/t" then some ⟨some 10⟩ else none,
        fun _ => false, fun _ => true⟩
      shTrivial ⟨.file ⟨"/t"⟩, [], [], ⟨"/"⟩, [.file ⟨"/d"⟩]⟩
      = (.normal (.ok ()), false) := by
  refine (((claim_C2 _ _ _).2 ⟨"/t"⟩ rfl ?_).1).mpr ?_
  · intro p hp
    simp [fileDeps] at hp
    subst hp
    exact ⟨⟨some 5⟩, rfl, rfl⟩
  · refine ⟨⟨some 10⟩, 10, rfl, rfl, ?_, ?_⟩
    · intro d hd
      simp at hd
      subst hd
      exact ⟨_, rfl⟩
    · intro p hp md' dt h1 h2
      simp [fileDeps] at hp
      subst hp
      simp at h1
      subst h1
      simp at h2
      omega

/-- Lookups only depend on the canonical string of the key. -/
theorem kfind_congr {α : Type} (m : List (TaskKey × α)) {k k' : TaskKey}
    (h : k.canon = k'.canon) : kfind m k = kfind m k' := by
  induction m with
  | nil => rfl
  | cons p rest ih =>
    simp only [kfind, h]
    exact if_congr Iff.rfl rfl ih

/-- Erasure leaves lookups of other canonical keys unchanged. -/
theorem kfind_kerase_ne {α : Type} (m : List (TaskKey × α)) {k k' : TaskKey}
    (h : k.canon ≠ k'.canon) : kfind (kerase m k) k' = kfind m k' := by
  induction m with
  | nil => rfl
  | cons p rest ih =>
    by_cases hp : p.1.canon = k.canon
    · have hp' : p.1.canon ≠ k'.canon := by rw [hp]; exact h
      simp only [kerase, if_pos hp, kfind, if_neg hp', ih]
    · simp only [kerase, if_neg hp, kfind, ih]

/-- Erasure removes the erased canonical key. -/
theorem kfind_kerase_self {α : Type} (m : List (TaskKey × α)) (k : TaskKey) :
    kfind (kerase m k) k = none := by
  induction m with
  | nil => rfl
  | cons p rest ih =>
    by_cases hp : p.1.canon = k.canon
    · simp only [kerase, if_pos hp, ih]
    · simp only [kerase, if_neg hp, kfind, if_neg hp, ih]

/-- Lookup after insertion. -/
theorem kfind_kinsert {α : Type} (m : List (TaskKey × α)) (k : TaskKey) (v : α) (k' : TaskKey) :
    kfind (kinsert m k v) k' = if k.canon = k'.canon then some v else kfind m k' := by
  by_cases h : k.canon = k'.canon
  · simp only [kinsert, kfind, if_pos h]
  · simp only [kinsert, kfind, if_neg h, kfind_kerase_ne m h]

/-- A finalized key and an un-started key never share a canonical string. -/
theorem done_init_canon_ne {st : List (TaskKey × CellState)} {a b : TaskKey}
    (hd : IsDoneAt st a) (hi : IsInitAt st b) : a.canon ≠ b.canon := by
  intro h
  rcases hd with ⟨r, hr⟩
  rcases hi with ⟨i, hib⟩
  rw [kfind_congr st h] at hr
  rw [hr] at hib
  cases hib

/-- Specification of a sequential `run` on one cell: it succeeds on any
present cell that is not awaiting an unpublished value, preserves the key
domain, finalized results and the absence of pending cells, never reverts a
cell to un-started, executes the inner future only from an un-started cell,
finalizes the cell with exactly the returned result on a normal outcome, and
leaves the states untouched on a panic. -/
theorem runCell_spec (fs : FS) (sh : Shell) (st : List (TaskKey × CellState)) (k : TaskKey)
    (h1 : (kfind st k).isSome) (h2 : NoPendingAt st) :
    ∃ out st2 ex, runCell fs sh st k = some (out, st2, ex) ∧
      (∀ k', (kfind st k').isSome ↔ (kfind st2 k').isSome) ∧
      (∀ k' r, kfind st k' = some (.done r) → kfind st2 k' = some (.done r)) ∧
      (∀ k' i, kfind st2 k' = some (.initial i) → kfind st k' = some (.initial i)) ∧
      NoPendingAt st2 ∧
      (ex = true → IsInitAt st k) ∧
      (∀ r, out = .normal r → kfind st2 k = some (.done r)) ∧
      (out = .panicked → st2 = st ∧ ex = true) := by
  rcases hfk : kfind st k with _ | c
  · rw [hfk] at h1; cases h1
  · cases c with
    | done r =>
      refine ⟨.normal r, st, false, ?_, ?_, ?_, ?_, h2, ?_, ?_, ?_⟩
      · simp [runCell, hfk]
      · intro k'; exact Iff.rfl
      · intro k' r' h; exact h
      · intro k' i h; exact h
      · intro h; cases h
      · intro r' hr'
        injection hr' with h
        rw [← h]
        exact hfk
      · intro h; cases h
    | processing val =>
      cases val with
      | none => exact absurd hfk (h2 k)
      | some r =>
        refine ⟨.normal r, kinsert st k (.done r), false, ?_, ?_, ?_, ?_, ?_, ?_, ?_, ?_⟩
        · simp [runCell, hfk]
        · intro k'
          rw [kfind_kinsert]
          by_cases hc : k.canon = k'.canon
          · rw [if_pos hc, ← kfind_congr st hc, hfk]
            simp
          · rw [if_neg hc]
        · intro k' r' h
          rw [kfind_kinsert]
          by_cases hc : k.canon = k'.canon
          · rw [← kfind_congr st hc, hfk] at h
            cases h
          · rw [if_neg hc]; exact h
        · intro k' i h
          rw [kfind_kinsert] at h
          by_cases hc : k.canon = k'.canon
          · rw [if_pos hc] at h; cases h
          · rw [if_neg hc] at h; exact h
        · intro k'
          rw [kfind_kinsert]
          by_cases hc : k.canon = k'.canon
          · rw [if_pos hc]; intro h; cases h
          · rw [if_neg hc]; exact h2 k'
        · intro h; cases h
        · intro r' hr'
          injection hr' with h
          rw [← h, kfind_kinsert, if_pos rfl]
        · intro h; cases h
    | initial inner =>
      rcases hif : intoFuture fs sh inner with ⟨o, b⟩
      cases o with
      | panicked =>
        refine ⟨.panicked, st, true, ?_, ?_, ?_, ?_, h2, ?_, ?_, ?_⟩
        · simp [runCell, hfk, hif]
        · intro k'; exact Iff.rfl
        · intro k' r' h; exact h
        · intro k' i h; exact h
        · intro _; exact ⟨inner, hfk⟩
        · intro r' hr'; cases hr'
        · intro _; exact ⟨rfl, rfl⟩
      | normal r =>
        refine ⟨.normal r, kinsert st k (.done r), true, ?_, ?_, ?_, ?_, ?_, ?_, ?_, ?_⟩
        · simp [runCell, hfk, hif]
        · intro k'
          rw [kfind_kinsert]
          by_cases hc : k.canon = k'.canon
          · rw [if_pos hc, ← kfind_congr st hc, hfk]
            simp
          · rw [if_neg hc]
        · intro k' r' h
          rw [kfind_kinsert]
          by_cases hc : k.canon = k'.canon
          · rw [← kfind_congr st hc, hfk] at h
            cases h
          · rw [if_neg hc]; exact h
        · intro k' i h
          rw [kfind_kinsert] at h
          by_cases hc : k.canon = k'.canon
          · rw [if_pos hc] at h; cases h
          · rw [if_neg hc] at h; exact h
        · intro k'
          rw [kfind_kinsert]
          by_cases hc : k.canon = k'.canon
          · rw [if_pos hc]; intro h; cases h
          · rw [if_neg hc]; exact h2 k'
        · intro _; exact ⟨inner, hfk⟩
        · intro r' hr'
          injection hr' with h
          rw [← h, kfind_kinsert, if_pos rfl]
        · intro h; cases h

/-- Specification of a sequential run of a forest, by strong induction on
its size: when every key of the forest is registered and no cell is pending,
the run completes and satisfies `ExecPost` — in particular each key's inner
future is executed at most once and every logged normal result is the
finalized result of its cell. -/
theorem execForest_spec (fs : FS) (sh : Shell) :
    ∀ (N : Nat) (l : List TreeNode), sizeOf l ≤ N →
      ∀ st, NoPendingAt st → (∀ x, x ∈ forestKeys l → (kfind st x).isSome) →
        ∃ out st' tr log, execForest fs sh st l = some (out, st', tr, log) ∧
          ExecPost st st' out tr log := by
  intro N
  induction N using Nat.strong_induction_on with
  | _ N IH =>
    intro l hsz st hnp hdom
    cases l with
    | nil =>
      refine ⟨.normal (.ok ()), st, [], [], by simp [execForest], ?_⟩
      refine ⟨fun x => Iff.rfl, fun x r h => h, fun x i h => h, fun h => h,
        List.Pairwise.nil, ?_, ?_, ?_, ?_⟩
      · intro x hx; cases hx
      · intro _ x hx; cases hx
      · intro h; simp at h
      · intro x r h; cases h
    | cons n rest =>
      cases n with
      | mk k cs =>
        have hszc : sizeOf cs < N := by
          simp only [List.cons.sizeOf_spec, TreeNode.mk.sizeOf_spec] at hsz
          omega
        have hszr : sizeOf rest < N := by
          simp only [List.cons.sizeOf_spec, TreeNode.mk.sizeOf_spec] at hsz
          omega
        have hdomA : (kfind st k).isSome := hdom k (by simp [forestKeys])
        have hdomc : ∀ x ∈ forestKeys cs, (kfind st x).isSome :=
          fun x hx => hdom x (by simp [forestKeys, hx])
        have hdomr : ∀ x ∈ forestKeys rest, (kfind st x).isSome :=
          fun x hx => hdom x (by simp [forestKeys, hx])
        obtain ⟨out1, st1, tr1, log1, hrun1, hp1⟩ :=
          IH (sizeOf cs) hszc cs le_rfl st hnp hdomc
        obtain ⟨hdom1, hdone1, hinit1, hnp1', hpar1, htri1, htrd1, hpan1, hlog1⟩ := hp1
        have hnp1 := hnp1' hnp
        cases out1 with
        | panicked =>
          exact ⟨.panicked, st1, tr1, log1, by simp [execForest, hrun1],
            hdom1, hdone1, hinit1, fun _ => hnp1, hpar1, htri1, htrd1, hpan1, hlog1⟩
        | normal r1 =>
          cases r1 with
          | error e1 =>
            exact ⟨.normal (.error e1), st1, tr1, log1, by simp [execForest, hrun1],
              hdom1, hdone1, hinit1, fun _ => hnp1, hpar1, htri1, htrd1, hpan1, hlog1⟩
          | ok u1 =>
            cases u1
            have hdoneTr1 : ∀ x ∈ tr1, IsDoneAt st1 x := htrd1 (by simp)
            have hkA1 : (kfind st1 k).isSome := (hdom1 k).mp hdomA
            obtain ⟨out, st2, ex, hrc, hciff, hcdone, hcinit, hnp2, hcex, hcnorm, hcpan⟩ :=
              runCell_spec fs sh st1 k hkA1 hnp1
            have hInitPreK : ex = true → IsInitAt st k := by
              intro hx
              rcases hcex hx with ⟨i, hi⟩
              exact ⟨i, hinit1 k i hi⟩
            have hparKmid : (tr1 ++ if ex then [k] else []).Pairwise
                (fun a b => a.canon ≠ b.canon) := by
              rw [List.pairwise_append]
              refine ⟨hpar1, ?_, ?_⟩
              · cases ex <;> simp
              · intro a ha b hb
                cases ex with
                | false => simp at hb
                | true =>
                  simp at hb
                  subst hb
                  exact done_init_canon_ne (hdoneTr1 a ha) (hcex rfl)
            have hInitPreMid : ∀ x ∈ tr1 ++ (if ex then [k] else []), IsInitAt st x := by
              intro x hx
              rcases List.mem_append.mp hx with hx | hx
              · exact htri1 x hx
              · cases ex with
                | false => simp at hx
                | true =>
                  simp at hx
                  subst hx
                  exact hInitPreK rfl
            cases out with
            | normal r =>
              have hdoneK2 : kfind st2 k = some (.done r) := hcnorm r rfl
              have hdoneMid2 : ∀ x ∈ tr1 ++ (if ex then [k] else []), IsDoneAt st2 x := by
                intro x hx
                rcases List.mem_append.mp hx with hx | hx
                · rcases hdoneTr1 x hx with ⟨rx, hrx⟩
                  exact ⟨rx, hcdone x rx hrx⟩
                · cases ex with
                  | false => simp at hx
                  | true =>
                    simp at hx
                    subst hx
                    exact ⟨r, hdoneK2⟩
              have hlogMid : ∀ x rx, (x, ExecOutcome.normal rx) ∈ log1 ++ [(k, ExecOutcome.normal r)] →
                  kfind st2 x = some (.done rx) := by
                intro x rx hx
                rcases List.mem_append.mp hx with hx | hx
                · exact hcdone x rx (hlog1 x rx hx)
                · simp at hx
                  rw [hx.1, hx.2]
                  exact hdoneK2
              cases r with
              | error e =>
                refine ⟨.normal (.error e), st2, tr1 ++ (if ex then [k] else []),
                  log1 ++ [(k, .normal (.error e))], by simp [execForest, hrun1, hrc], ?_⟩
                refine ⟨fun x => (hdom1 x).trans (hciff x),
                  fun x r h => hcdone x r (hdone1 x r h),
                  fun x i h => hinit1 x i (hcinit x i h),
                  fun _ => hnp2, hparKmid, hInitPreMid, fun _ => hdoneMid2, ?_, hlogMid⟩
                intro h; simp at h
              | ok u2 =>
                cases u2
                have hdomr2 : ∀ x ∈ forestKeys rest, (kfind st2 x).isSome :=
                  fun x hx => (hciff x).mp ((hdom1 x).mp (hdomr x hx))
                obtain ⟨out3, st3, tr3, log3, hrun3, hp3⟩ :=
                  IH (sizeOf rest) hszr rest le_rfl st2 hnp2 hdomr2
                obtain ⟨hdom3, hdone3, hinit3, hnp3', hpar3, htri3, htrd3, hpan3, hlog3⟩ := hp3
                have hdoneMid3 : ∀ x ∈ tr1 ++ (if ex then [k] else []), IsDoneAt st3 x := by
                  intro x hx
                  rcases hdoneMid2 x hx with ⟨rx, hrx⟩
                  exact ⟨rx, hdone3 x rx hrx⟩
                refine ⟨out3, st3, (tr1 ++ (if ex then [k] else [])) ++ tr3,
                  (log1 ++ [(k, .normal (.ok ()))]) ++ log3,
                  by simp [execForest, hrun1, hrc, hrun3], ?_⟩
                refine ⟨fun x => ((hdom1 x).trans (hciff x)).trans (hdom3 x),
                  fun x r h => hdone3 x r (hcdone x r (hdone1 x r h)),
                  fun x i h => hinit1 x i (hcinit x i (hinit3 x i h)),
                  fun _ => hnp3' hnp2, ?_, ?_, ?_, ?_, ?_⟩
                · rw [List.pairwise_append]
                  refine ⟨hparKmid, hpar3, ?_⟩
                  intro a ha b hb
                  rcases hdoneMid2 a ha with ⟨ra, hra⟩
                  exact done_init_canon_ne ⟨ra, hra⟩ (htri3 b hb)
                · intro x hx
                  rcases List.mem_append.mp hx with hx | hx
                  · exact hInitPreMid x hx
                  · rcases htri3 x hx with ⟨i, hi⟩
                    exact ⟨i, hinit1 x i (hcinit x i hi)⟩
                · intro hno x hx
                  rcases List.mem_append.mp hx with hx | hx
                  · exact hdoneMid3 x hx
                  · exact htrd3 hno x hx
                · intro hpn
                  rcases hpan3 hpn with ⟨tr30, kl, htr3, hdone30⟩
                  refine ⟨(tr1 ++ (if ex then [k] else [])) ++ tr30, kl, ?_, ?_⟩
                  · rw [htr3]
                    simp [List.append_assoc]
                  · intro x hx
                    rcases List.mem_append.mp hx with hx | hx
                    · exact hdoneMid3 x hx
                    · exact hdone30 x hx
                · intro x rx hx
                  rcases List.mem_append.mp hx with hx | hx
                  · exact hdone3 x rx (hlogMid x rx hx)
                  · exact hlog3 x rx hx
            | panicked =>
              obtain ⟨hst, hex⟩ := hcpan rfl
              subst hst
              subst hex
              refine ⟨.panicked, st2, tr1 ++ [k], log1 ++ [(k, .panicked)],
                by simp [execForest, hrun1, hrc], ?_⟩
              refine ⟨hdom1, hdone1, hinit1, fun _ => hnp1, by simpa using hparKmid,
                by simpa using hInitPreMid, ?_, ?_, ?_⟩
              · intro h; exact absurd rfl h
              · intro _
                exact ⟨tr1, k, rfl, hdoneTr1⟩
              · intro x rx hx
                rcases List.mem_append.mp hx with hx | hx
                · exact hlog1 x rx hx
                · simp at hx

/-- Seeding empty cells for File dependencies only ever adds `empty`
cells. -/
theorem seedFileDeps_shape (P : CellState → Prop) (hP : P TaskExecutable.empty) :
    ∀ (deps : List TaskKey) (acc : List (TaskKey × CellState)),
      (∀ k c, kfind acc k = some c → P c) →
      (∀ k c, kfind (seedFileDeps acc deps) k = some c → P c) := by
  intro deps
  induction deps with
  | nil => intro acc h; exact h
  | cons d rest ih =>
    intro acc h
    cases d with
    | phony nm => exact ih acc h
    | file p =>
      simp only [seedFileDeps]
      rcases hf : kfind acc (TaskKey.file p) with _ | c
      · refine ih _ ?_
        intro k c hk
        rw [kfind_kinsert] at hk
        by_cases hc : (TaskKey.file p).canon = k.canon
        · rw [if_pos hc] at hk
          injection hk with h'
          rw [← h']
          exact hP
        · rw [if_neg hc] at hk
          exact h k c hk
      · exact ih acc h

/-- Every cell `into_executable` produces is either an un-started task cell
or the empty `Done(Ok)` cell; in particular no `processing` cell exists
before execution starts. -/
theorem intoExecutable_cells (fs : FS) (sh : Shell) (genv : List (String × String)) :
    ∀ (tasks : List (TaskKey × Task)) (acc m : List (TaskKey × CellState)),
      (∀ k c, kfind acc k = some c → (∃ i, c = .initial i) ∨ c = TaskExecutable.empty) →
      intoExecutable fs sh genv tasks acc = .ok m →
      (∀ k c, kfind m k = some c → (∃ i, c = .initial i) ∨ c = TaskExecutable.empty) := by
  intro tasks
  induction tasks with
  | nil =>
    intro acc m h hm
    simp only [intoExecutable] at hm
    injection hm with h'
    rw [← h']
    exact h
  | cons kt rest ih =>
    intro acc m h hm
    rcases kt with ⟨key, task⟩
    simp only [intoExecutable] at hm
    rcases hps : parseScript sh (match task.script with | some s => rustLines s | none => [])
      with _ | items
    · simp only [hps] at hm
      cases hm
    · simp only [hps] at hm
      by_cases hdir : fs.isDir task.cwd.abs
      · rw [if_pos hdir] at hm
        refine ih _ m ?_ hm
        intro k c hk
        rw [kfind_kinsert] at hk
        by_cases hc : key.canon = k.canon
        · rw [if_pos hc] at hk
          injection hk with h'
          exact Or.inl ⟨_, h'.symm⟩
        · rw [if_neg hc] at hk
          exact seedFileDeps_shape _ (Or.inr rfl) task.depends acc h k c hk
      · rw [if_neg hdir] at hm; cases hm

/-- The wrapped registry map looks up to `Raw` entries exactly where the
registry does. -/
theorem kfind_map_raw (m : List (TaskKey × CellState)) (k : TaskKey) :
    kfind (m.map (fun p => (p.1, RawOrNode.raw p.2))) k
      = (kfind m k).map RawOrNode.raw := by
  induction m with
  | nil => rfl
  | cons p rest ih =>
    by_cases hc : p.1.canon = k.canon
    · simp [kfind, hc]
    · simp [kfind, hc, ih]

/-- The resolver invariant survives erasing an entry. -/
theorem resolverInv_kerase {m : List (TaskKey × CellState)}
    {list : List (TaskKey × RawOrNode)} (h : ResolverInv m list) (k : TaskKey) :
    ResolverInv m (kerase list k) := by
  obtain ⟨hdom, hcl⟩ := h
  constructor
  · intro x hx
    by_cases hc : k.canon = x.canon
    · rw [kfind_congr _ hc.symm, kfind_kerase_self] at hx
      cases hx
    · rw [kfind_kerase_ne _ hc] at hx
      exact hdom x hx
  · intro d n hd x hx
    by_cases hc : k.canon = d.canon
    · rw [kfind_congr _ hc.symm, kfind_kerase_self] at hd
      cases hd
    · rw [kfind_kerase_ne _ hc] at hd
      exact hcl d n hd x hx

/-- The resolver invariant survives inserting a node entry whose key is in
the registry and whose tree keys are all in the registry. -/
theorem resolverInv_kinsert_node {m : List (TaskKey × CellState)}
    {list : List (TaskKey × RawOrNode)} (h : ResolverInv m list) {d : TaskKey}
    (hd : (kfind m d).isSome) {n : TreeNode}
    (hn : ∀ x ∈ treeKeys n, (kfind m x).isSome) :
    ResolverInv m (kinsert list d (.node n)) := by
  obtain ⟨hdom, hcl⟩ := h
  constructor
  · intro x hx
    rw [kfind_kinsert] at hx
    by_cases hc : d.canon = x.canon
    · rw [← kfind_congr m hc]
      exact hd
    · rw [if_neg hc] at hx
      exact hdom x hx
  · intro d' n' hd' x hx
    rw [kfind_kinsert] at hd'
    by_cases hc : d.canon = d'.canon
    · rw [if_pos hc] at hd'
      injection hd' with h'
      injection h' with h''
      rw [← h''] at hx
      exact hn x hx
    · rw [if_neg hc] at hd'
      exact hcl d' n' hd' x hx

/-- Membership of a key in the keys of a forest is membership in the keys of
one of its trees. -/
theorem mem_forestKeys :
    ∀ (l : List TreeNode) (x : TaskKey),
      x ∈ forestKeys l ↔ ∃ a ∈ l, x ∈ treeKeys a := by
  intro l
  induction l with
  | nil => intro x; simp [forestKeys]
  | cons n rest ih =>
    intro x
    cases n with
    | mk k cs =>
      simp only [forestKeys, List.mem_cons, List.mem_append, ih]
      constructor
      · rintro (rfl | h | ⟨a, ha, hx⟩)
        · exact ⟨.mk x cs, by simp, by simp [treeKeys, forestKeys]⟩
        · exact ⟨.mk k cs, by simp, by simp [treeKeys, forestKeys, h]⟩
        · exact ⟨a, by simp [ha], hx⟩
      · rintro ⟨a, ha, hx⟩
        rcases ha with rfl | ha
        · simp only [treeKeys, forestKeys, List.append_nil, List.mem_cons] at hx
          rcases hx with rfl | hx
          · exact Or.inl rfl
          · exact Or.inr (Or.inl hx)
        · exact Or.inr (Or.inr ⟨a, ha, hx⟩)

/-- Keys of trees built by `convert` come from the registry map: under the
resolver invariant, expanding a registered key yields a tree whose keys are
all registered, and the invariant is preserved. -/
theorem convert_keys (m : List (TaskKey × CellState)) :
    ∀ fuel : Nat,
      (∀ (name : TaskKey) (raw : CellState) (list : List (TaskKey × RawOrNode))
          (parents : List TaskKey) (n : TreeNode) (list' : List (TaskKey × RawOrNode)),
        ResolverInv m list → (kfind m name).isSome →
        convert fuel name raw list parents = some (.ok (n, list')) →
        ResolverInv m list' ∧ ∀ x ∈ treeKeys n, (kfind m x).isSome) ∧
      (∀ (deps : List TaskKey) (list : List (TaskKey × RawOrNode))
          (parents : List TaskKey) (acc children : List TreeNode)
          (list' : List (TaskKey × RawOrNode)),
        ResolverInv m list →
        (∀ x, (∃ a ∈ acc, x ∈ treeKeys a) → (kfind m x).isSome) →
        convertDeps fuel deps list parents acc = some (.ok (children, list')) →
        ResolverInv m list' ∧ ∀ x ∈ forestKeys children, (kfind m x).isSome) := by
  intro fuel
  induction fuel with
  | zero =>
    constructor
    · intro name raw list parents n list' _ _ h
      simp [convert] at h
    · intro deps
      induction deps with
      | nil =>
        intro list parents acc children list' hinv hacc h
        simp only [convertDeps, Option.some.injEq, Except.ok.injEq, Prod.mk.injEq] at h
        obtain ⟨h1, h2⟩ := h
        subst h1
        subst h2
        refine ⟨hinv, ?_⟩
        intro x hx
        rcases (mem_forestKeys _ x).mp hx with ⟨a, ha, hxa⟩
        exact hacc x ⟨a, List.mem_reverse.mp ha, hxa⟩
      | cons d rest ihd =>
        intro list parents acc children list' hinv hacc h
        simp only [convertDeps] at h
        by_cases hmem : kmem parents d
        · rw [if_pos hmem] at h
          simp at h
        · rw [if_neg hmem] at h
          rcases hf : kfind list d with _ | item
          · simp [hf] at h
          · simp only [hf] at h
            cases item with
            | raw c => simp [convert] at h
            | node depNode =>
              have hdk : (kfind m d).isSome := hinv.1 d (by rw [hf]; rfl)
              have hdn : ∀ x ∈ treeKeys depNode, (kfind m x).isSome := hinv.2 d depNode hf
              refine ihd (kinsert list d (.node depNode)) parents (depNode :: acc) children
                list' (resolverInv_kinsert_node hinv hdk hdn) ?_ h
              intro x hx
              rcases hx with ⟨a, ha, hxa⟩
              rcases List.mem_cons.mp ha with rfl | ha
              · exact hdn x hxa
              · exact hacc x ⟨a, ha, hxa⟩
  | succ f ihf =>
    obtain ⟨pcf, pdf⟩ := ihf
    have pc : ∀ (name : TaskKey) (raw : CellState) (list : List (TaskKey × RawOrNode))
        (parents : List TaskKey) (n : TreeNode) (list' : List (TaskKey × RawOrNode)),
        ResolverInv m list → (kfind m name).isSome →
        convert (f + 1) name raw list parents = some (.ok (n, list')) →
        ResolverInv m list' ∧ ∀ x ∈ treeKeys n, (kfind m x).isSome := by
      intro name raw list parents n list' hinv hname h
      simp only [convert] at h
      rcases hcd : convertDeps f (cellChildren raw) list (name :: parents) [] with _ | res
      · simp [hcd] at h
      · rcases res with e | ⟨children, l2⟩
        · simp [hcd] at h
        · simp only [hcd, Option.some.injEq, Except.ok.injEq, Prod.mk.injEq] at h
          obtain ⟨h1, h2⟩ := h
          subst h1
          subst h2
          obtain ⟨hinv', hkeys⟩ := pdf (cellChildren raw) list (name :: parents) [] children
            l2 hinv (by rintro x ⟨a, ha, _⟩; simp at ha) hcd
          refine ⟨hinv', ?_⟩
          intro x hx
          simp only [treeKeys, forestKeys, List.append_nil, List.mem_cons] at hx
          rcases hx with rfl | hx
          · exact hname
          · exact hkeys x hx
    refine ⟨pc, ?_⟩
    intro deps
    induction deps with
    | nil =>
      intro list parents acc children list' hinv hacc h
      simp only [convertDeps, Option.some.injEq, Except.ok.injEq, Prod.mk.injEq] at h
      obtain ⟨h1, h2⟩ := h
      subst h1
      subst h2
      refine ⟨hinv, ?_⟩
      intro x hx
      rcases (mem_forestKeys _ x).mp hx with ⟨a, ha, hxa⟩
      exact hacc x ⟨a, List.mem_reverse.mp ha, hxa⟩
    | cons d rest ihd =>
      intro list parents acc children list' hinv hacc h
      simp only [convertDeps] at h
      by_cases hmem : kmem parents d
      · rw [if_pos hmem] at h
        simp at h
      · rw [if_neg hmem] at h
        rcases hf : kfind list d with _ | item
        · simp [hf] at h
        · simp only [hf] at h
          cases item with
          | raw c =>
            rcases hcv : convert (f + 1) d c (kerase list d) parents with _ | res
            · simp [hcv] at h
            · rcases res with e | ⟨node, l2⟩
              · simp [hcv] at h
              · simp only [hcv] at h
                have hdk : (kfind m d).isSome := hinv.1 d (by rw [hf]; rfl)
                obtain ⟨hinv2, hkeysn⟩ := pc d c (kerase list d) parents node l2
                  (resolverInv_kerase hinv d) hdk hcv
                refine ihd (kinsert l2 d (.node node)) parents (node :: acc) children list'
                  (resolverInv_kinsert_node hinv2 hdk hkeysn) ?_ h
                intro x hx
                rcases hx with ⟨a, ha, hxa⟩
                rcases List.mem_cons.mp ha with rfl | ha
                · exact hkeysn x hxa
                · exact hacc x ⟨a, ha, hxa⟩
          | node depNode =>
            have hdk : (kfind m d).isSome := hinv.1 d (by rw [hf]; rfl)
            have hdn : ∀ x ∈ treeKeys depNode, (kfind m x).isSome := hinv.2 d depNode hf
            refine ihd (kinsert list d (.node depNode)) parents (depNode :: acc) children
              list' (resolverInv_kinsert_node hinv hdk hdn) ?_ h
            intro x hx
            rcases hx with ⟨a, ha, hxa⟩
            rcases List.mem_cons.mp ha with rfl | ha
            · exact hdn x hxa
            · exact hacc x ⟨a, ha, hxa⟩

/-- Keys of the forest built by the target loop of `new_vec` are registry
keys. -/
theorem newVecGo_keys (m : List (TaskKey × CellState)) (fuel : Nat) :
    ∀ (targets : List TaskKey) (list : List (TaskKey × RawOrNode)) (roots forest : List TreeNode),
      ResolverInv m list →
      (∀ x, (∃ a ∈ roots, x ∈ treeKeys a) → (kfind m x).isSome) →
      newVecGo fuel list targets roots = some (.ok forest) →
      ∀ x ∈ forestKeys forest, (kfind m x).isSome := by
  intro targets
  induction targets with
  | nil =>
    intro list roots forest hinv hroots h x hx
    simp only [newVecGo, Option.some.injEq, Except.ok.injEq] at h
    subst h
    rcases (mem_forestKeys _ x).mp hx with ⟨a, ha, hxa⟩
    exact hroots x ⟨a, List.mem_reverse.mp ha, hxa⟩
  | cons t rest ih =>
    intro list roots forest hinv hroots h
    simp only [newVecGo] at h
    rcases hf : kfind list t with _ | item
    · simp [hf] at h
    · simp only [hf] at h
      cases item with
      | raw c =>
        rcases hcv : convert fuel t c (kerase list t) [] with _ | res
        · simp [hcv] at h
        · rcases res with e | ⟨node, l2⟩
          · simp [hcv] at h
          · simp only [hcv] at h
            have htk : (kfind m t).isSome := hinv.1 t (by rw [hf]; rfl)
            obtain ⟨hinv2, hkeysn⟩ := (convert_keys m fuel).1 t c (kerase list t) [] node l2
              (resolverInv_kerase hinv t) htk hcv
            refine ih l2 (node :: roots) forest hinv2 ?_ h
            intro x hx
            rcases hx with ⟨a, ha, hxa⟩
            rcases List.mem_cons.mp ha with rfl | ha
            · exact hkeysn x hxa
            · exact hroots x ⟨a, ha, hxa⟩
      | node depNode =>
        exact ih (kerase list t) roots forest (resolverInv_kerase hinv t) hroots h

/-- Claim C1: for every run over a resolved forest, each reachable key's
inner future — hence its script — is executed at most once (the executed-key
trace of the whole sequential run is pairwise distinct in canonical keys),
regardless of how many paths reach the key's shared cell and how many times
its `run` is called; and every `run` call on the same key that returns a
normal result returns the same single result. -/
theorem claim_C1 (fuel : Nat) (fs : FS) (sh : Shell) (genv : List (String × String))
    (tasks : List (TaskKey × Task)) (targets : List TaskKey)
    (m : List (TaskKey × CellState)) (forest : List TreeNode)
    (hexe : intoExecutable fs sh genv tasks [] = .ok m)
    (hnv : newVec fuel m targets = some (.ok forest)) :
    ∃ out st tr log, execForest fs sh m forest = some (out, st, tr, log) ∧
      tr.Pairwise (fun a b => a.canon ≠ b.canon) ∧
      ∀ k₁ r₁ k₂ r₂, (k₁, ExecOutcome.normal r₁) ∈ log →
        (k₂, ExecOutcome.normal r₂) ∈ log → k₁.canon = k₂.canon → r₁ = r₂ := by
  have hshape := intoExecutable_cells fs sh genv tasks [] m (by intro k c h; cases h) hexe
  have hnp : NoPendingAt m := by
    intro k h
    rcases hshape k _ h with ⟨i, hi⟩ | hi
    · cases hi
    · simp [TaskExecutable.empty] at hi
  have hinv0 : ResolverInv m (m.map (fun p => (p.1, RawOrNode.raw p.2))) := by
    constructor
    · intro x hx
      rw [kfind_map_raw] at hx
      rcases hk : kfind m x with _ | c
      · rw [hk] at hx; cases hx
      · rfl
    · intro d n hd
      rw [kfind_map_raw] at hd
      rcases hk : kfind m d with _ | c
      · rw [hk] at hd; cases hd
      · rw [hk] at hd; simp at hd
  have hdomF : ∀ x ∈ forestKeys forest, (kfind m x).isSome := by
    intro x hx
    exact newVecGo_keys m fuel targets _ [] forest hinv0
      (by rintro y ⟨a, ha, _⟩; simp at ha) hnv x hx
  obtain ⟨out, st', tr, log, hrun, hpost⟩ :=
    execForest_spec fs sh (sizeOf forest) forest le_rfl m hnp hdomF
  obtain ⟨_, _, _, _, hpar, _, _, _, hlog⟩ := hpost
  refine ⟨out, st', tr, log, hrun, hpar, ?_⟩
  intro k₁ r₁ k₂ r₂ h₁ h₂ hc
  have e₁ := hlog k₁ r₁ h₁
  have e₂ := hlog k₂ r₂ h₂
  rw [kfind_congr st' hc] at e₁
  rw [e₁] at e₂
  injection e₂ with e₃
  injection e₃

/-- Witness for C1: the single-task pipeline resolves and runs with a
duplicate-free execution trace. -/
theorem claim_C1_witness :
    ∃ out st tr log,
      execForest fsTrivial shTrivial
        [(TaskKey.phony ⟨"a"⟩, CellState.initial ⟨.phony ⟨"a"⟩, [], [], ⟨"/"⟩, []⟩)]
        [TreeNode.mk (.phony ⟨"a"⟩) []] = some (out, st, tr, log) ∧
      tr.Pairwise (fun a b => a.canon ≠ b.canon) ∧
      ∀ k₁ r₁ k₂ r₂, (k₁, ExecOutcome.normal r₁) ∈ log →
        (k₂, ExecOutcome.normal r₂) ∈ log → k₁.canon = k₂.canon → r₁ = r₂ :=
  claim_C1 2 fsTrivial shTrivial [] [(.phony ⟨"a"⟩, simpleTask ⟨"/"⟩ [])] [.phony ⟨"a"⟩]
    [(.phony ⟨"a"⟩, .initial ⟨.phony ⟨"a"⟩, [], [], ⟨"/"⟩, []⟩)]
    [.mk (.phony ⟨"a"⟩) []] rfl
    (by simp [newVec, newVecGo, convert, convertDeps, kfind, kerase, kinsert, kmem,
      cellChildren, TaskKey.canon, NormarizedPath.as_short_str])

/-- Seeding never overwrites an existing entry (`or_insert` semantics). -/
theorem seedFileDeps_keeps (deps : List TaskKey) :
    ∀ (acc : List (TaskKey × CellState)) (k : TaskKey) (c : CellState),
      kfind acc k = some c → kfind (seedFileDeps acc deps) k = some c := by
  induction deps with
  | nil => intro acc k c h; exact h
  | cons d rest ih =>
    intro acc k c h
    cases d with
    | phony nm => exact ih acc k c h
    | file p =>
      simp only [seedFileDeps]
      rcases hf : kfind acc (TaskKey.file p) with _ | c'
      · refine ih _ k c ?_
        rw [kfind_kinsert]
        by_cases hc : (TaskKey.file p).canon = k.canon
        · rw [kfind_congr acc hc] at hf
          rw [hf] at h
          cases h
        · rw [if_neg hc]
          exact h
      · exact ih acc k c h

/-- Seeding either leaves a lookup unchanged or yields an empty cell. -/
theorem seedFileDeps_find (deps : List TaskKey) :
    ∀ (acc : List (TaskKey × CellState)) (k : TaskKey),
      kfind (seedFileDeps acc deps) k = kfind acc k ∨
      kfind (seedFileDeps acc deps) k = some TaskExecutable.empty := by
  induction deps with
  | nil => intro acc k; exact Or.inl rfl
  | cons d rest ih =>
    intro acc k
    cases d with
    | phony nm => exact ih acc k
    | file p =>
      simp only [seedFileDeps]
      rcases hf : kfind acc (TaskKey.file p) with _ | c'
      · rcases ih (kinsert acc (TaskKey.file p) TaskExecutable.empty) k with h | h
        · rw [h, kfind_kinsert]
          by_cases hc : (TaskKey.file p).canon = k.canon
          · rw [if_pos hc]
            exact Or.inr rfl
          · rw [if_neg hc]
            exact Or.inl rfl
        · exact Or.inr h
      · exact ih acc k

/-- A File dependency occurring in the list gets an empty cell if it had
none before. -/
theorem seedFileDeps_hits (deps : List TaskKey) :
    ∀ (acc : List (TaskKey × CellState)) (p : NormarizedPath),
      TaskKey.file p ∈ deps →
      (kfind acc (.file p) = none ∨ kfind acc (.file p) = some TaskExecutable.empty) →
      kfind (seedFileDeps acc deps) (.file p) = some TaskExecutable.empty := by
  induction deps with
  | nil => intro acc p h; cases h
  | cons d rest ih =>
    intro acc p hmem hpre
    rcases List.mem_cons.mp hmem with heq | hmem'
    · rw [← heq]
      simp only [seedFileDeps]
      rcases hf : kfind acc (TaskKey.file p) with _ | c'
      · refine seedFileDeps_keeps rest _ _ _ ?_
        rw [kfind_kinsert, if_pos rfl]
      · rcases hpre with h | h
        · rw [h] at hf; cases hf
        · rw [h] at hf
          injection hf with h'
          rw [h']
          exact seedFileDeps_keeps rest _ _ _ (h' ▸ h)
    · cases d with
      | phony nm => exact ih acc p hmem' hpre
      | file q =>
        simp only [seedFileDeps]
        rcases hf : kfind acc (TaskKey.file q) with _ | c'
        · refine ih _ p hmem' ?_
          rw [kfind_kinsert]
          by_cases hc : (TaskKey.file q).canon = (TaskKey.file p).canon
          · rw [if_pos hc]
            exact Or.inr rfl
          · rw [if_neg hc]
            exact hpre
        · exact ih acc p hmem' hpre

/-- A File key that occurs in some registry task's depends but is the key of
no registry task is auto-materialized by `into_executable` as the empty
`Done(Ok)` cell. -/
theorem intoExecutable_dep_empty (fs : FS) (sh : Shell) (genv : List (String × String)) :
    ∀ (tasks : List (TaskKey × Task)) (acc m : List (TaskKey × CellState)) (p : NormarizedPath),
      (∀ t ∈ tasks, t.1.canon ≠ (TaskKey.file p).canon) →
      ((kfind acc (.file p) = none ∧ ∃ t ∈ tasks, TaskKey.file p ∈ t.2.depends) ∨
        kfind acc (.file p) = some TaskExecutable.empty) →
      intoExecutable fs sh genv tasks acc = .ok m →
      kfind m (.file p) = some TaskExecutable.empty := by
  intro tasks
  induction tasks with
  | nil =>
    intro acc m p _ hpre hm
    simp only [intoExecutable] at hm
    injection hm with h'
    rw [← h']
    rcases hpre with ⟨_, t, ht, _⟩ | h
    · cases ht
    · exact h
  | cons kt rest ih =>
    intro acc m p hkeys hpre hm
    rcases kt with ⟨key, task⟩
    simp only [intoExecutable] at hm
    rcases hps : parseScript sh (match task.script with | some s => rustLines s | none => [])
      with _ | items
    · simp only [hps] at hm
      cases hm
    · simp only [hps] at hm
      by_cases hdir : fs.isDir task.cwd.abs
      · rw [if_pos hdir] at hm
        have hkey : key.canon ≠ (TaskKey.file p).canon := hkeys (key, task) (by simp)
        have hstep : ∀ c, kfind (seedFileDeps acc task.depends) (.file p) = some c →
            kfind (kinsert (seedFileDeps acc task.depends) key
              (.initial ⟨key, mergedEnvs genv task.envs, items, task.cwd, task.depends⟩))
              (.file p) = some c := by
          intro c hc
          rw [kfind_kinsert, if_neg hkey]
          exact hc
        refine ih _ m p (fun t ht => hkeys t (by simp [ht])) ?_ hm
        rcases hpre with ⟨hnone, t, ht, hdep⟩ | hempty
        · rcases List.mem_cons.mp ht with rfl | ht'
          · exact Or.inr (hstep _ (seedFileDeps_hits task.depends acc p hdep (Or.inl hnone)))
          · rcases seedFileDeps_find task.depends acc (.file p) with hs | hs
            · left
              constructor
              · rw [kfind_kinsert, if_neg hkey, hs]
                exact hnone
              · exact ⟨t, ht', hdep⟩
            · exact Or.inr (hstep _ hs)
        · exact Or.inr (hstep _ (seedFileDeps_keeps task.depends acc _ _ hempty))
      · rw [if_neg hdir] at hm
        cases hm

/-- Claim C10: an auto-materialized File dependency (a File key in some
task's depends with no task of its own) is created directly in the
`Done(Ok)` state; running its cell returns `Ok` immediately, touches no
state, executes nothing, and is independent of the filesystem and shell
oracles; the existence check concerning the file lives in the `run()` of the
depending task, which fails with `DependencyFileNotFound` when the file does
not exist. -/
theorem claim_C10 :
    (∀ (fs : FS) (sh : Shell) (genv : List (String × String)) (tasks : List (TaskKey × Task))
        (m : List (TaskKey × CellState)) (p : NormarizedPath),
      intoExecutable fs sh genv tasks [] = .ok m →
      (∀ t ∈ tasks, t.1.canon ≠ (TaskKey.file p).canon) →
      (∃ t ∈ tasks, TaskKey.file p ∈ t.2.depends) →
      kfind m (.file p) = some TaskExecutable.empty) ∧
    TaskExecutable.empty = CellState.done (.ok ()) ∧
    (∀ (fs fs' : FS) (sh sh' : Shell) (st : List (TaskKey × CellState)) (k : TaskKey),
      kfind st k = some TaskExecutable.empty →
      runCell fs sh st k = some (.normal (.ok ()), st, false) ∧
      runCell fs sh st k = runCell fs' sh' st k) ∧
    (∀ (fs : FS) (sh : Shell) (inner : TaskExecutableInner) (nm : PhonyTaskString)
        (p : NormarizedPath),
      inner.key = .phony nm → inner.depends = [.file p] → fs.existsOk p.abs = false →
      intoFuture fs sh inner
        = (.normal (.error (.dependencyFileNotFound p inner.key)), false)) := by
  refine ⟨?_, rfl, ?_, ?_⟩
  · intro fs sh genv tasks m p hm hkeys ⟨t, ht, hdep⟩
    exact intoExecutable_dep_empty fs sh genv tasks [] m p hkeys
      (Or.inl ⟨rfl, t, ht, hdep⟩) hm
  · intro fs fs' sh sh' st k h
    constructor
    · simp [runCell, h, TaskExecutable.empty]
    · simp [runCell, h, TaskExecutable.empty]
  · intro fs sh inner nm p hkey hdeps hex
    have hmiss : firstMissingDep fs inner.depends = some p := by
      rw [hdeps]
      simp [firstMissingDep, hex]
    exact (intoFuture_phony fs sh inner nm hkey).2 p hmiss

/-- Witness for C10: a registry whose only task depends on the undefined
File key `/x` materializes it as the empty finalized cell, and running that
cell yields `Ok` without execution. -/
theorem claim_C10_witness :
    kfind
      [(TaskKey.phony ⟨"b"⟩,
        CellState.initial ⟨.phony ⟨"b"⟩, [], [], ⟨"/"⟩, [.file ⟨"/x"⟩]⟩),
        (TaskKey.file ⟨"/x"⟩, TaskExecutable.empty)]
      (.file ⟨"/x"⟩) = some TaskExecutable.empty ∧
    runCell fsTrivial shTrivial [(TaskKey.file ⟨"/x"⟩, TaskExecutable.empty)] (.file ⟨"/x"⟩)
      = some (.normal (.ok ()), [(TaskKey.file ⟨"/x"⟩, TaskExecutable.empty)], false) := by
  constructor
  · exact claim_C10.1 fsTrivial shTrivial []
      [(.phony ⟨"b"⟩, simpleTask ⟨"/"⟩ [.file ⟨"/x"⟩])] _ ⟨"/x"⟩ rfl
      (by intro t ht; simp at ht; subst ht; simp [TaskKey.canon, NormarizedPath.as_short_str])
      ⟨(.phony ⟨"b"⟩, simpleTask ⟨"/"⟩ [.file ⟨"/x"⟩]), by simp, by simp [simpleTask]⟩
  · exact (claim_C10.2.2.1 fsTrivial fsTrivial shTrivial shTrivial
      [(TaskKey.file ⟨"/x"⟩, TaskExecutable.empty)] (.file ⟨"/x"⟩) (by simp [kfind])).1

/-- Counterexample to claim C3: with an empty registry and the File target
`/f`, the resolver fails with `ItemNotFound` carrying that File key — so
`ItemNotFound(K)` does arise for a File key, and a File target with no
registry entry (and occurring in no depends list) is an error rather than an
auto-materialized empty task. -/
theorem claim_C3_counterexample :
    ruskExec 1 fsTrivial shTrivial [] [] [.file ⟨"/f"⟩]
      = some (.error (.treeNodeBroken (.itemNotFound (.file ⟨"/f"⟩))), []) := by
  simp [ruskExec, intoExecutable, newVec, newVecGo, kfind]

/-- Amended claim C3: `ItemNotFound(K)` is produced when `K` is looked up (as
a target here) while absent from the executables map; File keys are
auto-materialized as empty `Done(Ok)` cells exactly when they occur in the
depends of some registry task; and an auto-materialized cell's `run()`
returns `Ok` immediately, regardless of the file's existence on disk. -/
theorem claim_C3_amended :
    (∀ (fs : FS) (sh : Shell) (genv : List (String × String)) (tasks : List (TaskKey × Task))
        (m : List (TaskKey × CellState)) (p : NormarizedPath),
      intoExecutable fs sh genv tasks [] = .ok m →
      (∀ t ∈ tasks, t.1.canon ≠ (TaskKey.file p).canon) →
      (∃ t ∈ tasks, TaskKey.file p ∈ t.2.depends) →
      kfind m (.file p) = some TaskExecutable.empty) ∧
    (∀ (fuel : Nat) (m : List (TaskKey × CellState)) (k : TaskKey) (rest : List TaskKey),
      kfind m k = none →
      newVec fuel m (k :: rest) = some (.error (.itemNotFound k))) ∧
    (∀ (fs : FS) (sh : Shell) (st : List (TaskKey × CellState)) (k : TaskKey),
      kfind st k = some TaskExecutable.empty →
      runCell fs sh st k = some (.normal (.ok ()), st, false)) := by
  refine ⟨?_, ?_, ?_⟩
  · intro fs sh genv tasks m p hm hkeys ⟨t, ht, hdep⟩
    exact intoExecutable_dep_empty fs sh genv tasks [] m p hkeys
      (Or.inl ⟨rfl, t, ht, hdep⟩) hm
  · intro fuel m k rest h
    have h' : kfind (m.map (fun p => (p.1, RawOrNode.raw p.2))) k = none := by
      rw [kfind_map_raw, h]
      rfl
    simp [newVec, newVecGo, h']
  · intro fs sh st k h
    simp [runCell, h, TaskExecutable.empty]

/-- Witness for the amended C3: an absent target gives `ItemNotFound`, a
dependency-only File key is materialized empty, and running it yields
`Ok`. -/
theorem claim_C3_amended_witness :
    newVec 1 [] [.file ⟨"/g"⟩] = some (.error (.itemNotFound (.file ⟨"/g"⟩))) ∧
    kfind
      [(TaskKey.phony ⟨"c"⟩,
        CellState.initial ⟨.phony ⟨"c"⟩, [], [], ⟨"/"⟩, [.file ⟨"/y"⟩]⟩),
        (TaskKey.file ⟨"/y"⟩, TaskExecutable.empty)]
      (.file ⟨"/y"⟩) = some TaskExecutable.empty ∧
    runCell fsTrivial shTrivial [(TaskKey.file ⟨"/y"⟩, TaskExecutable.empty)] (.file ⟨"/y"⟩)
      = some (.normal (.ok ()), [(TaskKey.file ⟨"/y"⟩, TaskExecutable.empty)], false) := by
  refine ⟨?_, ?_, ?_⟩
  · exact claim_C3_amended.2.1 1 [] (.file ⟨"/g"⟩) [] rfl
  · exact claim_C3_amended.1 fsTrivial shTrivial []
      [(.phony ⟨"c"⟩, simpleTask ⟨"/"⟩ [.file ⟨"/y"⟩])] _ ⟨"/y"⟩ rfl
      (by intro t ht; simp at ht; subst ht; simp [TaskKey.canon, NormarizedPath.as_short_str])
      ⟨(.phony ⟨"c"⟩, simpleTask ⟨"/"⟩ [.file ⟨"/y"⟩]), by simp, by simp [simpleTask]⟩
  · exact claim_C3_amended.2.2 fsTrivial shTrivial
      [(TaskKey.file ⟨"/y"⟩, TaskExecutable.empty)] (.file ⟨"/y"⟩) (by simp [kfind])

/-- Claim C4: a dependency cycle reachable from the target makes resolution
fail with `CircularDependency` carrying the first key re-entered on the
current root-to-node expansion chain, before any script runs.  For the cycle
`x → y → z → x` with target `x` the error carries `x`, and likewise for the
self-loop `x → x`; in both cases the pipeline returns the resolve error with
an empty execution trace. -/
theorem claim_C4 (x y z : String) (hxy : x ≠ y) (hyz : y ≠ z) (hxz : x ≠ z)
    (fs : FS) (sh : Shell) (genv : List (String × String)) (cwd : NormarizedPath)
    (hdir : fs.isDir cwd.abs = true) :
    ruskExec 4 fs sh genv
      [(.phony ⟨x⟩, simpleTask cwd [.phony ⟨y⟩]),
        (.phony ⟨y⟩, simpleTask cwd [.phony ⟨z⟩]),
        (.phony ⟨z⟩, simpleTask cwd [.phony ⟨x⟩])] [.phony ⟨x⟩]
      = some (.error (.treeNodeBroken (.circularDependency (.phony ⟨x⟩))), []) ∧
    ruskExec 2 fs sh genv [(.phony ⟨x⟩, simpleTask cwd [.phony ⟨x⟩])] [.phony ⟨x⟩]
      = some (.error (.treeNodeBroken (.circularDependency (.phony ⟨x⟩))), []) := by
  constructor <;>
    simp [ruskExec, intoExecutable, parseScript, rustLines, simpleTask, hdir, seedFileDeps,
      mergedEnvs, newVec, newVecGo, convert, convertDeps, kfind, kerase, kinsert, kmem,
      cellChildren, TaskKey.canon, NormarizedPath.as_short_str, hxy, hyz, hxz,
      Ne.symm hxy, Ne.symm hyz, Ne.symm hxz]

/-- Witness for C4 at the concrete names of the specification's scenario. -/
theorem claim_C4_witness :
    ruskExec 4 fsTrivial shTrivial []
      [(.phony ⟨"x"⟩, simpleTask ⟨"/"⟩ [.phony ⟨"y"⟩]),
        (.phony ⟨"y"⟩, simpleTask ⟨"/"⟩ [.phony ⟨"z"⟩]),
        (.phony ⟨"z"⟩, simpleTask ⟨"/"⟩ [.phony ⟨"x"⟩])] [.phony ⟨"x"⟩]
      = some (.error (.treeNodeBroken (.circularDependency (.phony ⟨"x"⟩))), []) ∧
    ruskExec 2 fsTrivial shTrivial [] [(.phony ⟨"x"⟩, simpleTask ⟨"/"⟩ [.phony ⟨"x"⟩])]
      [.phony ⟨"x"⟩]
      = some (.error (.treeNodeBroken (.circularDependency (.phony ⟨"x"⟩))), []) :=
  claim_C4 "x" "y" "z" (by decide) (by decide) (by decide) fsTrivial shTrivial [] ⟨"/"⟩ rfl

/-- Erasing an absent key changes nothing. -/
theorem kerase_eq_of_kfind_none {α : Type} :
    ∀ (m : List (TaskKey × α)) (k : TaskKey), kfind m k = none → kerase m k = m := by
  intro m k
  induction m with
  | nil => intro _; rfl
  | cons p rest ih =>
    intro h
    simp only [kfind] at h
    by_cases hc : p.1.canon = k.canon
    · rw [if_pos hc] at h
      cases h
    · rw [if_neg hc] at h
      simp only [kerase, if_neg hc, ih h]

/-- Successful insertion of pairwise-distinct declarations: the loop
succeeds, the resulting map keeps every earlier entry, holds exactly one
entry per declaration, and has the expected size. -/
theorem registryInsertAll_success :
    ∀ (l acc : List (TaskKey × Task)),
      (l.map (fun p => p.1)).Pairwise (fun a b => a.canon ≠ b.canon) →
      (∀ p ∈ l, kfind acc p.1 = none) →
      ∃ m, registryInsertAll l acc = .ok m ∧ m.length = l.length + acc.length ∧
        (∀ x, (kfind acc x).isSome → (kfind m x).isSome) ∧
        (∀ p ∈ l, (kfind m p.1).isSome) := by
  intro l
  induction l with
  | nil =>
    intro acc _ _
    exact ⟨acc, rfl, by simp, fun x h => h, by intro p h; cases h⟩
  | cons kt rest ih =>
    intro acc hpw hacc
    rcases kt with ⟨k, t⟩
    have hk : kfind acc k = none := hacc (k, t) (by simp)
    simp only [List.map_cons, List.pairwise_cons] at hpw
    have hrest : ∀ p ∈ rest, kfind (kinsert acc k t) p.1 = none := by
      intro p hp
      rw [kfind_kinsert]
      have hne : k.canon ≠ p.1.canon := hpw.1 p.1 (List.mem_map.mpr ⟨p, hp, rfl⟩)
      rw [if_neg hne]
      exact hacc p (by simp [hp])
    obtain ⟨m, hm, hlen, hmono, hall⟩ := ih (kinsert acc k t) hpw.2 hrest
    refine ⟨m, ?_, ?_, ?_, ?_⟩
    · simp only [registryInsertAll, hk]
      exact hm
    · have : (kinsert acc k t).length = acc.length + 1 := by
        simp [kinsert, kerase_eq_of_kfind_none acc k hk]
      rw [hlen, this]
      simp only [List.length_cons]
      omega
    · intro x hx
      refine hmono x ?_
      rw [kfind_kinsert]
      by_cases hc : k.canon = x.canon
      · rw [if_pos hc]; rfl
      · rw [if_neg hc]; exact hx
    · intro p hp
      rcases List.mem_cons.mp hp with rfl | hp'
      · refine hmono k ?_
        rw [kfind_kinsert, if_pos rfl]
        rfl
      · exact hall p hp'

/-- The insertion loop only succeeds when the declaration keys are pairwise
distinct and disjoint from the accumulator. -/
theorem registryInsertAll_ok_nodup :
    ∀ (l acc m : List (TaskKey × Task)), registryInsertAll l acc = .ok m →
      (l.map (fun p => p.1)).Pairwise (fun a b => a.canon ≠ b.canon) ∧
      (∀ p ∈ l, kfind acc p.1 = none) := by
  intro l
  induction l with
  | nil =>
    intro acc m _
    exact ⟨List.Pairwise.nil, by intro p h; cases h⟩
  | cons kt rest ih =>
    intro acc m h
    rcases kt with ⟨k, t⟩
    simp only [registryInsertAll] at h
    rcases hk : kfind acc k with _ | c
    · simp only [hk] at h
      obtain ⟨hpw, hnone⟩ := ih (kinsert acc k t) m h
      constructor
      · simp only [List.map_cons, List.pairwise_cons]
        refine ⟨?_, hpw⟩
        intro b hb
        rcases List.mem_map.mp hb with ⟨p, hp, rfl⟩
        have hpn := hnone p hp
        rw [kfind_kinsert] at hpn
        intro hc
        rw [if_pos hc] at hpn
        cases hpn
      · intro p hp
        rcases List.mem_cons.mp hp with rfl | hp'
        · exact hk
        · have hpn := hnone p hp'
          rw [kfind_kinsert] at hpn
          by_cases hc : k.canon = p.1.canon
          · rw [if_pos hc] at hpn
            cases hpn
          · rw [if_neg hc] at hpn
            exact hpn
    · simp only [hk] at h
      cases h

/-- When the insertion loop fails, the error is `DuplicatedTaskName` for a
declared key that collides — with the accumulator, or with another
declaration. -/
theorem registryInsertAll_error :
    ∀ (l acc : List (TaskKey × Task)) (e : RuskfileDeserializeError),
      registryInsertAll l acc = .error e →
      ∃ k, e = .duplicatedTaskName k ∧
        (((kfind acc k).isSome ∧
            1 ≤ (l.map (fun p => p.1)).countP (fun a => a.canon == k.canon)) ∨
          2 ≤ (l.map (fun p => p.1)).countP (fun a => a.canon == k.canon)) := by
  intro l
  induction l with
  | nil =>
    intro acc e h
    simp [registryInsertAll] at h
  | cons kt rest ih =>
    intro acc e h
    rcases kt with ⟨k0, t⟩
    simp only [registryInsertAll] at h
    rcases hk : kfind acc k0 with _ | c
    · simp only [hk] at h
      obtain ⟨k, hke, hdisj⟩ := ih (kinsert acc k0 t) e h
      refine ⟨k, hke, ?_⟩
      have hcc : ((k0, t) :: rest).map (fun p => p.1) = k0 :: rest.map (fun p => p.1) := rfl
      rw [hcc, List.countP_cons]
      rcases hdisj with ⟨hsome, hge⟩ | hge
      · rw [kfind_kinsert] at hsome
        by_cases hc : k0.canon = k.canon
        · right
          have hif : (if (k0.canon == k.canon) = true then 1 else 0) = 1 := by simp [hc]
          rw [hif]
          omega
        · left
          rw [if_neg hc] at hsome
          refine ⟨hsome, ?_⟩
          omega
      · right
        have : (rest.map (fun p => p.1)).countP (fun a => a.canon == k.canon)
            ≤ (rest.map (fun p => p.1)).countP (fun a => a.canon == k.canon)
              + if (fun a => a.canon == k.canon) k0 then 1 else 0 := by
          split <;> omega
        omega
    · simp only [hk] at h
      injection h with h'
      refine ⟨k0, h'.symm, Or.inl ⟨by rw [hk]; rfl, ?_⟩⟩
      have hcc : ((k0, t) :: rest).map (fun p => p.1) = k0 :: rest.map (fun p => p.1) := rfl
      rw [hcc, List.countP_cons]
      have hif : (if (k0.canon == k0.canon) = true then 1 else 0) = 1 := by simp
      rw [hif]
      omega

/-- Claim C9: when the resolved keys of all declarations across the
successfully parsed configuration files are pairwise distinct, registry
construction succeeds with exactly one entry per declaration; when two
declarations resolve to the same key, it fails with `DuplicatedTaskName` for
a key that indeed occurs at least twice. -/
theorem claim_C9 (normJoin : String → String → NormarizedPath)
    (files : List (String × Except String (List (TaskKeyRelative × RawTask)))) :
    ((declaredKeys normJoin files).Pairwise (fun a b => a.canon ≠ b.canon) →
      ∃ m, composerTryInto normJoin files = .ok m ∧
        m.length = (declaredKeys normJoin files).length ∧
        ∀ p ∈ composerDecls normJoin files, (kfind m p.1).isSome) ∧
    (¬ (declaredKeys normJoin files).Pairwise (fun a b => a.canon ≠ b.canon) →
      ∃ k, composerTryInto normJoin files = .error (.duplicatedTaskName k) ∧
        2 ≤ (declaredKeys normJoin files).countP (fun a => a.canon == k.canon)) := by
  constructor
  · intro hpw
    obtain ⟨m, hm, hlen, _, hall⟩ :=
      registryInsertAll_success (composerDecls normJoin files) [] hpw
        (by intro p _; rfl)
    refine ⟨m, hm, ?_, hall⟩
    rw [hlen]
    simp [declaredKeys]
  · intro hpw
    rcases hres : composerTryInto normJoin files with e | m
    · obtain ⟨k, hke, hdisj⟩ := registryInsertAll_error (composerDecls normJoin files) [] e hres
      subst hke
      refine ⟨k, rfl, ?_⟩
      rcases hdisj with ⟨hsome, _⟩ | hge
      · simp [kfind] at hsome
      · exact hge
    · obtain ⟨hpw', _⟩ := registryInsertAll_ok_nodup (composerDecls normJoin files) [] m hres
      exact absurd hpw' hpw

/-- Witness for C9: a file declaring the same phony name twice fails with
`DuplicatedTaskName`, and a file with two distinct names succeeds with two
entries. -/
theorem claim_C9_witness :
    (∃ k, composerTryInto (fun _ _ => ⟨"/"⟩)
        [("d", .ok [(TaskKeyRelative.phony ⟨"a"⟩, ⟨[], none, [], "."⟩),
          (TaskKeyRelative.phony ⟨"a"⟩, ⟨[], none, [], "."⟩)])]
        = .error (.duplicatedTaskName k) ∧
      2 ≤ (declaredKeys (fun _ _ => ⟨"/"⟩)
        [("d", .ok [(TaskKeyRelative.phony ⟨"a"⟩, ⟨[], none, [], "."⟩),
          (TaskKeyRelative.phony ⟨"a"⟩, ⟨[], none, [], "."⟩)])]).countP
          (fun a => a.canon == k.canon)) ∧
    (∃ m, composerTryInto (fun _ _ => ⟨"/"⟩)
        [("d", .ok [(TaskKeyRelative.phony ⟨"a"⟩, ⟨[], none, [], "."⟩),
          (TaskKeyRelative.phony ⟨"b"⟩, ⟨[], none, [], "."⟩)])]
        = .ok m ∧
      m.length = (declaredKeys (fun _ _ => ⟨"/"⟩)
        [("d", .ok [(TaskKeyRelative.phony ⟨"a"⟩, ⟨[], none, [], "."⟩),
          (TaskKeyRelative.phony ⟨"b"⟩, ⟨[], none, [], "."⟩)])]).length ∧
      ∀ p ∈ composerDecls (fun _ _ => ⟨"/"⟩)
        [("d", .ok [(TaskKeyRelative.phony ⟨"a"⟩, ⟨[], none, [], "."⟩),
          (TaskKeyRelative.phony ⟨"b"⟩, ⟨[], none, [], "."⟩)])], (kfind m p.1).isSome) := by
  constructor
  · refine (claim_C9 (fun _ _ => ⟨"/"⟩) _).2 ?_
    intro h
    simp [declaredKeys, composerDecls, TaskKeyRelative.intoTaskKey, resolveRawTask,
      TaskKey.canon] at h
  · refine (claim_C9 (fun _ _ => ⟨"/"⟩) _).1 ?_
    simp [declaredKeys, composerDecls, TaskKeyRelative.intoTaskKey, resolveRawTask,
      TaskKey.canon]

end Rusk
